import Mathlib

/-!
Hex-transcribing loop device: the write path of `my_loop_device.c`.

A shallow embedding of `calculate_chunk_size` and `loop_write`, followed by the
properties of the emitted text, of the return value and of the logical offset.

Conventions of the embedding
* an input byte is a `Fin 256` (the octet stored in caller memory);
* the content of `/tmp/output` is a `List Char`; a missing file and an empty
  file are not told apart, since `O_CREAT` creates the file on every open;
* the surroundings of one call (does `filp_open` fail, does `kmalloc` fail,
  which caller addresses are mapped, which `kernel_write` calls fail) are the
  fields of `Env`;
* `size_t` values are natural numbers; `ssize_t` and `loff_t` results are
  reduced to 64-bit two's complement where the source converts or adds.
-/

namespace LoopDevice

/-! ## Data model -/

/-- One octet of caller memory. -/
abbrev Byte := Fin 256

/-- The constant `MAX_CHUNK_SIZE` (line 13). -/
def MAX_CHUNK_SIZE : Nat := 4096

/-- The errno `ENOMEM`. -/
def ENOMEM : Int := 12

/-- The errno `EFAULT`. -/
def EFAULT : Int := 14

/-- The two open modes `loop_write` chooses between (besides `O_WRONLY | O_CREAT`). -/
inductive OpenMode where
  | truncate
  | append
  deriving DecidableEq, Repr

/-- The surroundings of one call of `loop_write`. -/
structure Env where
  /-- The errno with which `filp_open` fails, `none` when it succeeds. -/
  open_errno : Option Nat
  /-- Whether `kmalloc` returns `NULL`. -/
  kmalloc_fails : Bool
  /-- The caller memory at `buf + j`; `none` for an address that cannot be read. -/
  user : Nat → Option Byte
  /-- Whether the `k`-th call of `kernel_write` in this request fails (and writes nothing). -/
  write_fails : Nat → Bool

/-- The open output file: its content and the number of `kernel_write` calls made on it. -/
structure OutFile where
  data : List Char
  nwrites : Nat

/-- How the `while` loop of `loop_write` is left. -/
inductive LoopExit where
  /-- The loop condition `remaining_bytes > 0` became false. -/
  | done (f : OutFile) (copies : List (Nat × Nat))
  /-- The body returned `-EFAULT` after a failed `copy_from_user`. -/
  | fault (f : OutFile) (copies : List (Nat × Nat))
  /-- The iteration budget of the embedding ran out. -/
  | hang

/-- What one call of `loop_write` leaves behind. -/
structure WriteResult where
  /-- The value returned to the caller. -/
  retval : Int
  /-- The logical offset `*pos` after the call. -/
  pos : Int
  /-- The content of `/tmp/output` after the call. -/
  disk : List Char
  /-- The mode passed to `filp_open`. -/
  flags : OpenMode
  /-- The `(offset, length)` of every `copy_from_user` call, in order. -/
  copies : List (Nat × Nat)

/-! ## Machine integers -/

/-- Conversion of a `size_t` to `ssize_t` (64-bit two's complement). -/
def to_ssize_t (n : Nat) : Int :=
  if n % 2 ^ 64 < 2 ^ 63 then ((n % 2 ^ 64 : Nat) : Int) else ((n % 2 ^ 64 : Nat) : Int) - 2 ^ 64

/-- The update `*pos += count` on a `loff_t`: the sum is taken modulo `2 ^ 64` and read back as
a signed 64-bit value. -/
def loff_add (pos : Int) (count : Nat) : Int :=
  to_ssize_t ((pos + (count : Int)) % 2 ^ 64).toNat

/-- Reading a stored octet through a `char` lvalue (signed `char`). -/
def char_of_byte (b : Byte) : Int :=
  if b.val < 128 then (b.val : Int) else (b.val : Int) - 256

/-- The cast `(unsigned char)c`. -/
def to_unsigned_char (c : Int) : Nat := (c % 256).toNat

/-! ## Formatting -/

/-- The digit table of the `%X` conversion. -/
def upper_digits : List Char :=
  ['0', '1', '2', '3', '4', '5', '6', '7', '8', '9', 'A', 'B', 'C', 'D', 'E', 'F']

/-- The uppercase hexadecimal digit of `d`. -/
def hex_digit_upper (d : Nat) : Char := upper_digits.getD d '0'

/-- The uppercase hexadecimal digits of `n`, most significant first (at least one digit). -/
def upper_hex_aux : Nat → Nat → List Char → List Char
  | 0, _, acc => acc
  | fuel + 1, n, acc =>
    if n / 16 = 0 then hex_digit_upper (n % 16) :: acc
    else upper_hex_aux fuel (n / 16) (hex_digit_upper (n % 16) :: acc)

/-- The characters `sprintf(hex_value, "%02X", v)` stores for a non-negative `v`:
the uppercase hexadecimal digits, padded with zeros on the left to width two. -/
def sprintf_02X (v : Nat) : List Char :=
  let ds := upper_hex_aux (v + 1) v []
  List.replicate (2 - ds.length) '0' ++ ds

/-! ## Operations -/

/-- The function `calculate_chunk_size` (lines 40-43). -/
def calculate_chunk_size (file_size : Nat) : Nat := min file_size MAX_CHUNK_SIZE

/-- The open mode of line 55: `(*pos == 0) ? O_TRUNC : O_APPEND`. -/
def open_flags (pos : Int) : OpenMode := if pos = 0 then .truncate else .append

/-- The call `filp_open(OUTPUT_FILE, O_WRONLY | O_CREAT | mode, 0644)` on a file whose content is
`disk`: an error pointer (its `PTR_ERR` value), or the open file. -/
def filp_open (env : Env) (disk : List Char) (mode : OpenMode) : Except Int OutFile :=
  match env.open_errno with
  | some e => .error (-(e : Int))
  | none =>
    match mode with
    | .truncate => .ok { data := [], nwrites := 0 }
    | .append => .ok { data := disk, nwrites := 0 }

/-- The call `kernel_write(output_file, s, len, &output_file->f_pos)`: the characters go to the end
of the file; a failing call writes nothing. The result of the call is not looked at by
`loop_write`. -/
def kernel_write (env : Env) (f : OutFile) (s : List Char) : OutFile :=
  if env.write_fails f.nwrites then { data := f.data, nwrites := f.nwrites + 1 }
  else { data := f.data ++ s, nwrites := f.nwrites + 1 }

/-- The call `copy_from_user(kernel_buffer, buf + off, n)`: the `n` octets read, or `none` when
one of the addresses cannot be read (a non-zero result in the source). -/
def copy_from_user (user : Nat → Option Byte) (off : Nat) : Nat → Option (List Byte)
  | 0 => some []
  | n + 1 =>
    match user off, copy_from_user user (off + 1) n with
    | some b, some bs => some (b :: bs)
    | _, _ => none

/-- The `for` loop of lines 78-87 over the staged octets `kernel_buffer[i ..]`,
with the loop variable `i` and the `bytes_written` of the enclosing iteration. -/
def for_loop (env : Env) (bytes_written : Nat) : List Byte → Nat → OutFile → OutFile
  | [], _, f => f
  | c :: rest, i, f =>
    let current_byte := to_unsigned_char (char_of_byte c)
    let hex_value := sprintf_02X current_byte
    let f1 := kernel_write env f (hex_value.take 2)
    let f2 := if ((i + bytes_written) + 1) % 16 = 0 then kernel_write env f1 ['\n'] else f1
    for_loop env bytes_written rest (i + 1) f2

/-- The `while` loop of lines 69-91, run for at most `fuel` iterations. -/
def while_loop (env : Env) (chunk_size : Nat) :
    Nat → Nat → Nat → OutFile → List (Nat × Nat) → LoopExit
  | 0, remaining_bytes, _, f, copies =>
    if remaining_bytes > 0 then .hang else .done f copies
  | fuel + 1, remaining_bytes, bytes_written, f, copies =>
    if remaining_bytes > 0 then
      let bytes_to_write := min remaining_bytes chunk_size
      let copies1 := copies ++ [(bytes_written, bytes_to_write)]
      match copy_from_user env.user bytes_written bytes_to_write with
      | none => .fault f copies1
      | some kernel_buffer =>
        let f1 := for_loop env bytes_written kernel_buffer 0 f
        while_loop env chunk_size fuel (remaining_bytes - bytes_to_write)
          (bytes_written + bytes_to_write) f1 copies1
    else .done f copies

/-- The function `loop_write` (lines 45-100) called with `count` and `*pos = pos` while
`/tmp/output` holds `disk`. The result is `none` only if the iteration budget `count` of the
`while` loop runs out, which `loop_write_returns` excludes. -/
def loop_write (env : Env) (disk : List Char) (count : Nat) (pos : Int) : Option WriteResult :=
  let flags := open_flags pos
  match filp_open env disk flags with
  | .error e => some { retval := e, pos := pos, disk := disk, flags := flags, copies := [] }
  | .ok output_file =>
    if env.kmalloc_fails then
      some { retval := -ENOMEM, pos := pos, disk := output_file.data, flags := flags, copies := [] }
    else
      let chunk_size := calculate_chunk_size count
      match while_loop env chunk_size count count 0 output_file [] with
      | .hang => none
      | .fault f copies =>
        some { retval := -EFAULT, pos := pos, disk := f.data, flags := flags, copies := copies }
      | .done f copies =>
        let f1 := if count % 16 ≠ 0 then kernel_write env f ['\n'] else f
        some { retval := to_ssize_t count, pos := loff_add pos count, disk := f1.data,
               flags := flags, copies := copies }

/-- A session: the write requests of one open device handle, each with its own surroundings and
`count`, run one after the other on the same file and the same logical offset. -/
def session (disk : List Char) (pos : Int) : List (Env × Nat) → Option (List WriteResult)
  | [] => some []
  | (env, count) :: rest =>
    match loop_write env disk count pos with
    | none => none
    | some r =>
      match session r.disk r.pos rest with
      | none => none
      | some rs => some (r :: rs)

/-- Caller memory that holds exactly the octets `bs` at `buf`. -/
def user_of (bs : List Byte) : Nat → Option Byte := fun j => bs[j]?

/-- Surroundings in which nothing fails and the caller memory holds `bs`. -/
def env_ok (bs : List Byte) : Env :=
  { open_errno := none, kmalloc_fails := false, user := user_of bs, write_fails := fun _ => false }

/-! ## Reference text -/

/-- The two characters written for one octet. -/
def hex_pair (b : Byte) : List Char :=
  [hex_digit_upper (b.val / 16), hex_digit_upper (b.val % 16)]

/-- The text of the octets `bs` whose first one has index `start` in its request: each hex pair,
followed by a line break when the index of its octet plus one is a multiple of 16. -/
def hex_lines (start : Nat) : List Byte → List Char
  | [] => []
  | b :: rest =>
    hex_pair b ++ (if (start + 1) % 16 = 0 then ['\n'] else []) ++ hex_lines (start + 1) rest

/-- The line break that closes a request whose length is not a multiple of 16. -/
def forced_break (count : Nat) : List Char := if count % 16 ≠ 0 then ['\n'] else []

/-- The unchunked reference transcription of one request, in the words of the specification:
walk the input once with index `i = 0 .. count - 1`, emit the hex pair of octet `i`, a line break
when `(i + 1) mod 16 = 0`, and a final line break when `count mod 16 ≠ 0`. -/
def reference_transcode (bs : List Byte) : List Char :=
  hex_lines 0 bs ++ forced_break bs.length

/-- The content of the output file right after a successful open at logical offset `pos`. -/
def opened (pos : Int) (disk : List Char) : List Char := if pos = 0 then [] else disk

/-- The caller memory holds the octets `bs` at `buf`. -/
def Reads (env : Env) (bs : List Byte) : Prop := ∀ j, j < bs.length → env.user j = bs[j]?

/-- No call of `kernel_write` fails. -/
def WritesOk (env : Env) : Prop := ∀ k, env.write_fails k = false

/-- The request for the octets `bs` meets no failure: the open and the allocation succeed, the
octets can be read, and every `kernel_write` succeeds. -/
def Succeeds (env : Env) (bs : List Byte) : Prop :=
  env.open_errno = none ∧ env.kmalloc_fails = false ∧ Reads env bs ∧ WritesOk env

/-- The offsets a write request can be called with: `*pos` is not negative and `*pos + count`
fits a `loff_t`. -/
def InRange (pos : Int) (count : Nat) : Prop := 0 ≤ pos ∧ pos + (count : Int) < 2 ^ 63

instance (pos : Int) (count : Nat) : Decidable (InRange pos count) := by
  unfold InRange
  infer_instance

/-! ## The appends of a request -/

/-- The appends the `for` loops make for the octets `bs` whose first one has index `start` in its
request, in order: for each octet its hex pair, then a line break when the index of the octet
plus one is a multiple of 16. -/
def hex_appends (start : Nat) : List Byte → List (List Char)
  | [] => []
  | b :: rest =>
    hex_pair b :: ((if (start + 1) % 16 = 0 then [['\n']] else []) ++
      hex_appends (start + 1) rest)

/-- All the appends a request for the octets `bs` makes when its copies succeed, in order: those
of the `for` loops, then the end-of-request line break when the length is not a multiple
of 16. -/
def request_appends (bs : List Byte) : List (List Char) :=
  hex_appends 0 bs ++ (if bs.length % 16 ≠ 0 then [['\n']] else [])

/-- What a run of appends leaves in the file when the first of them is the `n`-th call of
`kernel_write`: the characters of every append whose call does not fail, in order. -/
def surviving (fails : Nat → Bool) : Nat → List (List Char) → List Char
  | _, [] => []
  | n, s :: rest => (if fails n then [] else s) ++ surviving fails (n + 1) rest

/-! ## Decoding -/

/-- The value of an uppercase hexadecimal digit: its place in the digit table. -/
def hex_digit_value (c : Char) : Nat := upper_digits.indexOf c

/-- Decoding of a text of hex digits: each two consecutive characters give one octet, the first
digit worth 16 times its value. -/
def decode_pairs : List Char → List Byte
  | hi :: lo :: rest =>
    ⟨(16 * hex_digit_value hi + hex_digit_value lo) % 256, Nat.mod_lt _ (by decide)⟩ ::
      decode_pairs rest
  | _ => []

/-! ## Sample inputs -/

/-- The sixteen octets `0x00 .. 0x0F`. -/
def sample16 : List Byte := [0, 1, 2, 3, 4, 5, 6, 7, 8, 9, 10, 11, 12, 13, 14, 15]

/-- The three octets `0xFF, 0xAB, 0x10`. -/
def sample3 : List Byte := [0xFF, 0xAB, 0x10]

/-- The ten octets `0x00 .. 0x09`. -/
def sample10a : List Byte := [0, 1, 2, 3, 4, 5, 6, 7, 8, 9]

/-- The ten octets `0x0A .. 0x13`. -/
def sample10b : List Byte := [10, 11, 12, 13, 14, 15, 16, 17, 18, 19]

/-- The twenty octets `0x00 .. 0x13`. -/
def sample20 : List Byte := sample10a ++ sample10b

/-- One full chunk: 4096 octets `0x41`. -/
def sample4096 : List Byte := List.replicate 4096 0x41

/-- Surroundings in which the caller memory holds `bs` and only the `k`-th call of
`kernel_write` fails. -/
def env_write_fails (bs : List Byte) (k : Nat) : Env :=
  { open_errno := none, kmalloc_fails := false, user := user_of bs,
    write_fails := fun j => j == k }

/-- Surroundings in which `filp_open` fails with the errno `e`. -/
def env_open_fails (bs : List Byte) (e : Nat) : Env :=
  { open_errno := some e, kmalloc_fails := false, user := user_of bs,
    write_fails := fun _ => false }

/-- Surroundings in which `kmalloc` fails. -/
def env_alloc_fails (bs : List Byte) : Env :=
  { open_errno := none, kmalloc_fails := true, user := user_of bs,
    write_fails := fun _ => false }

end LoopDevice

namespace LoopDevice

/-! ## Formatting lemmas -/

set_option maxRecDepth 100000 in
theorem sprintf_take_two (b : Byte) :
    (sprintf_02X (to_unsigned_char (char_of_byte b))).take 2 = hex_pair b := by
  revert b
  decide

theorem to_ssize_t_small (n : Nat) (h : n < 2 ^ 63) : to_ssize_t n = (n : Int) := by
  unfold to_ssize_t
  have h1 : n % 2 ^ 64 = n := Nat.mod_eq_of_lt (by omega)
  rw [h1, if_pos h]

theorem loff_add_in_range (pos : Int) (count : Nat) (h : InRange pos count) :
    loff_add pos count = pos + (count : Int) := by
  obtain ⟨h0, h1⟩ := h
  unfold loff_add
  have h2 : (pos + (count : Int)) % 2 ^ 64 = pos + (count : Int) :=
    Int.emod_eq_of_lt (by omega) (by omega)
  rw [h2]
  have h3 : ((pos + (count : Int)).toNat : Int) = pos + (count : Int) :=
    Int.toNat_of_nonneg (by omega)
  rw [to_ssize_t_small _ (by omega), h3]

/-! ## The text of a run of octets -/

theorem hex_lines_append (s : Nat) (as cs : List Byte) :
    hex_lines s (as ++ cs) = hex_lines s as ++ hex_lines (s + as.length) cs := by
  induction as generalizing s with
  | nil => simp [hex_lines]
  | cons a as ih =>
    have h : s + 1 + as.length = s + (as.length + 1) := by omega
    rw [List.cons_append]
    simp only [hex_lines, ih, List.length_cons, List.append_assoc, h]

theorem hex_lines_length (s : Nat) (as : List Byte) :
    (hex_lines s as).length = 2 * as.length + ((s + as.length) / 16 - s / 16) := by
  induction as generalizing s with
  | nil => simp [hex_lines]
  | cons a as ih =>
    simp only [hex_lines, List.length_append, ih, List.length_cons, hex_pair]
    split <;> simp <;> omega

/-! ## The loops when nothing fails -/

theorem kernel_write_ok (env : Env) (hw : WritesOk env) (f : OutFile) (s : List Char) :
    (kernel_write env f s).data = f.data ++ s := by
  unfold kernel_write
  rw [hw f.nwrites]
  rfl

theorem for_loop_ok (env : Env) (hw : WritesOk env) (bw : Nat) (kbuf : List Byte) (i : Nat)
    (f : OutFile) : (for_loop env bw kbuf i f).data = f.data ++ hex_lines (i + bw) kbuf := by
  induction kbuf generalizing i f with
  | nil => simp [for_loop, hex_lines]
  | cons c rest ih =>
    simp only [for_loop, hex_lines]
    rw [ih, sprintf_take_two]
    have h : i + 1 + bw = i + bw + 1 := by omega
    rw [h]
    split
    · simp [kernel_write_ok env hw]
    · simp [kernel_write_ok env hw]

theorem copy_from_user_ok (env : Env) (bs : List Byte) (hr : Reads env bs) (n off : Nat)
    (h : off + n ≤ bs.length) :
    copy_from_user env.user off n = some ((bs.drop off).take n) := by
  induction n generalizing off with
  | zero => simp [copy_from_user]
  | succ n ih =>
    have h1 : off < bs.length := by omega
    have h2 : env.user off = some bs[off] := by
      rw [hr off h1]
      exact List.getElem?_eq_getElem h1
    simp only [copy_from_user, h2, ih (off + 1) (by omega)]
    rw [List.drop_eq_getElem_cons h1, List.take_succ_cons]

theorem while_loop_ok (env : Env) (bs : List Byte) (hr : Reads env bs) (hw : WritesOk env)
    (chunk_size fuel remaining bw : Nat) (f : OutFile) (copies : List (Nat × Nat))
    (hfuel : remaining ≤ fuel) (hchunk : 0 < remaining → 0 < chunk_size)
    (hlen : bw + remaining = bs.length) :
    ∃ f1 cs, while_loop env chunk_size fuel remaining bw f copies = .done f1 cs ∧
      f1.data = f.data ++ hex_lines bw (bs.drop bw) := by
  induction fuel generalizing remaining bw f copies with
  | zero =>
    have h0 : remaining = 0 := by omega
    subst h0
    have hd : bs.drop bw = [] := List.drop_eq_nil_of_le (by omega)
    exact ⟨f, copies, by simp [while_loop], by simp [hd, hex_lines]⟩
  | succ fuel ih =>
    by_cases hrem : remaining > 0
    · have hc := hchunk hrem
      have hn : 0 < min remaining chunk_size := by omega
      have hcopy := copy_from_user_ok env bs hr (min remaining chunk_size) bw (by omega)
      obtain ⟨f1, cs, h1, h2⟩ := ih (remaining - min remaining chunk_size)
        (bw + min remaining chunk_size)
        (for_loop env bw ((bs.drop bw).take (min remaining chunk_size)) 0 f)
        (copies ++ [(bw, min remaining chunk_size)]) (by omega) (fun _ => hc) (by omega)
      refine ⟨f1, cs, ?_, ?_⟩
      · simp only [while_loop, hrem, if_true, hcopy]
        exact h1
      · rw [h2, for_loop_ok env hw]
        have hsplit : bs.drop bw = (bs.drop bw).take (min remaining chunk_size) ++
            bs.drop (bw + min remaining chunk_size) := by
          rw [← List.drop_drop, List.take_append_drop]
        conv_rhs => rw [hsplit, hex_lines_append]
        have hl : ((bs.drop bw).take (min remaining chunk_size)).length =
            min remaining chunk_size := by
          rw [List.length_take, List.length_drop]
          omega
        rw [hl]
        simp
    · have h0 : remaining = 0 := by omega
      subst h0
      have hd : bs.drop bw = [] := List.drop_eq_nil_of_le (by omega)
      exact ⟨f, copies, by simp [while_loop], by simp [hd, hex_lines]⟩

theorem calculate_chunk_size_pos (count : Nat) (h : 0 < count) :
    0 < calculate_chunk_size count := by
  unfold calculate_chunk_size MAX_CHUNK_SIZE
  omega

/-- The whole result of a request that meets no failure. -/
theorem loop_write_ok (env : Env) (bs : List Byte) (hs : Succeeds env bs) (disk : List Char)
    (pos : Int) :
    ∃ cs, loop_write env disk bs.length pos = some
      { retval := to_ssize_t bs.length, pos := loff_add pos bs.length,
        disk := opened pos disk ++ hex_lines 0 bs ++ forced_break bs.length,
        flags := open_flags pos, copies := cs } := by
  obtain ⟨hopen, halloc, hr, hw⟩ := hs
  have hopened : filp_open env disk (open_flags pos) =
      .ok { data := opened pos disk, nwrites := 0 } := by
    unfold filp_open open_flags opened
    rw [hopen]
    by_cases hp : pos = 0 <;> simp [hp]
  obtain ⟨f1, cs, h1, h2⟩ := while_loop_ok env bs hr hw (calculate_chunk_size bs.length)
    bs.length bs.length 0 { data := opened pos disk, nwrites := 0 } [] (Nat.le_refl _)
    (calculate_chunk_size_pos _) (by omega)
  refine ⟨cs, ?_⟩
  simp only [loop_write, hopened, halloc, h1]
  simp only [List.drop_zero] at h2
  by_cases hm : bs.length % 16 = 0
  · simp [hm, h2, forced_break]
  · simp [hm, h2, forced_break, kernel_write_ok env hw]

theorem env_ok_succeeds (bs : List Byte) : Succeeds (env_ok bs) bs :=
  ⟨rfl, rfl, fun _ _ => rfl, fun _ => rfl⟩

/-! ## Characters of the text -/

theorem hex_digit_upper_mem (d : Nat) : hex_digit_upper d ∈ upper_digits := by
  unfold hex_digit_upper
  by_cases h : d < upper_digits.length
  · rw [List.getD_eq_getElem _ _ h]
    exact List.getElem_mem h
  · rw [List.getD_eq_default _ _ (by omega)]
    decide

theorem upper_digits_ne_newline (c : Char) (h : c ∈ upper_digits) : c ≠ '\n' := by
  intro hc
  subst hc
  revert h
  decide

theorem hex_digit_upper_ne_newline (d : Nat) : hex_digit_upper d ≠ '\n' :=
  upper_digits_ne_newline _ (hex_digit_upper_mem d)

theorem hex_pair_filter (b : Byte) : (hex_pair b).filter (· ≠ '\n') = hex_pair b := by
  simp [hex_pair, List.filter_cons, hex_digit_upper_ne_newline]

theorem hex_lines_filter (s : Nat) (as : List Byte) :
    (hex_lines s as).filter (· ≠ '\n') = (as.map hex_pair).flatten := by
  induction as generalizing s with
  | nil => simp [hex_lines]
  | cons a as ih =>
    simp only [hex_lines, List.filter_append, ih, hex_pair_filter, List.map_cons,
      List.flatten_cons, List.append_assoc]
    split <;> simp

theorem flatten_hex_pair_length (as : List Byte) :
    ((as.map hex_pair).flatten).length = 2 * as.length := by
  induction as with
  | nil => simp
  | cons a as ih =>
    simp only [List.map_cons, List.flatten_cons, List.length_append, ih, List.length_cons]
    simp [hex_pair]
    omega

theorem flatten_hex_pair_mem (as : List Byte) (c : Char) (h : c ∈ (as.map hex_pair).flatten) :
    c ∈ upper_digits := by
  simp only [List.mem_flatten, List.mem_map] at h
  obtain ⟨l, ⟨b, _, hb⟩, hc⟩ := h
  subst hb
  simp only [hex_pair, List.mem_cons, List.mem_singleton, List.not_mem_nil, or_false] at hc
  rcases hc with hc | hc <;> subst hc <;> exact hex_digit_upper_mem _

theorem hex_lines_count (s : Nat) (as : List Byte) :
    (hex_lines s as).count '\n' = (s + as.length) / 16 - s / 16 := by
  induction as generalizing s with
  | nil => simp [hex_lines]
  | cons a as ih =>
    have hp : (hex_pair a).count '\n' = 0 := by
      rw [List.count_eq_zero]
      intro hmem
      simp only [hex_pair, List.mem_cons, List.mem_singleton, List.not_mem_nil, or_false] at hmem
      rcases hmem with h | h <;> exact hex_digit_upper_ne_newline _ h.symm
    simp only [hex_lines, List.count_append, ih, hp, List.length_cons]
    split <;> simp <;> omega

theorem hex_lines_head (s : Nat) (cs : List Byte) : (hex_lines s cs)[0]? ≠ some '\n' := by
  cases cs with
  | nil => simp [hex_lines]
  | cons c cs =>
    simp [hex_lines, hex_pair, hex_digit_upper_ne_newline]

/-- The text of a request, cut at the octet of index `i`. -/
theorem hex_lines_split (bs : List Byte) (i : Nat) (hi : i < bs.length) :
    hex_lines 0 bs = hex_lines 0 (bs.take i) ++
      (hex_pair bs[i] ++ ((if (i + 1) % 16 = 0 then ['\n'] else []) ++
        hex_lines (i + 1) (bs.drop (i + 1)))) := by
  have h1 : bs = bs.take i ++ bs[i] :: bs.drop (i + 1) := by
    rw [← List.drop_eq_getElem_cons hi, List.take_append_drop]
  have h2 : (bs.take i).length = i := by
    rw [List.length_take]
    omega
  conv_lhs => rw [h1, hex_lines_append, h2]
  simp [hex_lines]

theorem hex_lines_take_length (bs : List Byte) (i : Nat) (hi : i < bs.length) :
    (hex_lines 0 (bs.take i)).length = 2 * i + i / 16 := by
  have h2 : (bs.take i).length = i := by
    rw [List.length_take]
    omega
  rw [hex_lines_length, h2]
  simp

/-- Where the hex pair of the octet of index `i` stands in the text of a request, and what
follows it. -/
theorem hex_lines_at (bs : List Byte) (i : Nat) (hi : i < bs.length) :
    (((hex_lines 0 bs).take (2 * i + i / 16)).filter (· ≠ '\n')).length = 2 * i ∧
    (hex_lines 0 bs)[2 * i + i / 16]? = some (hex_digit_upper (bs[i].val / 16)) ∧
    (hex_lines 0 bs)[2 * i + i / 16 + 1]? = some (hex_digit_upper (bs[i].val % 16)) ∧
    ((hex_lines 0 bs)[2 * i + i / 16 + 2]? = some '\n' ↔ (i + 1) % 16 = 0) := by
  have hlen := hex_lines_take_length bs i hi
  have htake : (bs.take i).length = i := by
    rw [List.length_take]
    omega
  rw [hex_lines_split bs i hi]
  refine ⟨?_, ?_, ?_, ?_⟩
  · rw [List.take_left' hlen, hex_lines_filter, flatten_hex_pair_length, htake]
  · rw [List.getElem?_append_right (by omega), hlen]
    simp [hex_pair]
  · rw [List.getElem?_append_right (by omega), hlen]
    simp [hex_pair]
  · rw [List.getElem?_append_right (by omega), hlen]
    have h2 : 2 * i + i / 16 + 2 - (2 * i + i / 16) = 2 := by omega
    rw [h2]
    by_cases hm : (i + 1) % 16 = 0
    · simp [hex_pair, hm]
    · have hh := hex_lines_head (i + 1) (bs.drop (i + 1))
      simp only [hex_pair, hm, if_false, List.nil_append, iff_false]
      intro hc
      apply hh
      rw [← hc]
      simp

/-! ## Placement of the line breaks and shape of the text -/

/-- C1: in the text emitted by one successful write request (`body`, the emitted text without the
forced end-of-request break), the hex pair of the octet of index `i` stands at position
`2 * i + i / 16`, after exactly `i` hex pairs, and the character right after it is a line break
if and only if `(i + 1) % 16 = 0`; the text has `2 * count + count / 16` characters in all. The
request may have any length and any logical offset. -/
theorem line_break_iff_sixteenth (env : Env) (bs : List Byte) (hs : Succeeds env bs)
    (disk : List Char) (pos : Int) :
    ∃ r body, loop_write env disk bs.length pos = some r ∧
      r.disk = (if pos = 0 then [] else disk) ++ body ++
        (if bs.length % 16 ≠ 0 then ['\n'] else []) ∧
      body.length = 2 * bs.length + bs.length / 16 ∧
      ∀ i (hi : i < bs.length),
        ((body.take (2 * i + i / 16)).filter (· ≠ '\n')).length = 2 * i ∧
        body[2 * i + i / 16]? = some (hex_digit_upper (bs[i].val / 16)) ∧
        body[2 * i + i / 16 + 1]? = some (hex_digit_upper (bs[i].val % 16)) ∧
        (body[2 * i + i / 16 + 2]? = some '\n' ↔ (i + 1) % 16 = 0) := by
  obtain ⟨cs, h⟩ := loop_write_ok env bs hs disk pos
  have hlen : (hex_lines 0 bs).length = 2 * bs.length + bs.length / 16 := by
    rw [hex_lines_length]
    simp
  exact ⟨_, hex_lines 0 bs, h, rfl, hlen, fun i hi => hex_lines_at bs i hi⟩

/-- A first write of `0x00 .. 0x0F` meets the hypotheses of `line_break_iff_sixteenth`: the one
line break follows the sixteenth hex pair. -/
theorem line_break_iff_sixteenth_witness :
    Succeeds (env_ok sample16) sample16 ∧
    ∃ r body, loop_write (env_ok sample16) [] sample16.length 0 = some r ∧
      r.disk = (if (0 : Int) = 0 then [] else []) ++ body ++
        (if sample16.length % 16 ≠ 0 then ['\n'] else []) ∧
      body.length = 2 * sample16.length + sample16.length / 16 ∧
      ∀ i (hi : i < sample16.length),
        ((body.take (2 * i + i / 16)).filter (· ≠ '\n')).length = 2 * i ∧
        body[2 * i + i / 16]? = some (hex_digit_upper (sample16[i].val / 16)) ∧
        body[2 * i + i / 16 + 1]? = some (hex_digit_upper (sample16[i].val % 16)) ∧
        (body[2 * i + i / 16 + 2]? = some '\n' ↔ (i + 1) % 16 = 0) :=
  ⟨env_ok_succeeds sample16,
    line_break_iff_sixteenth (env_ok sample16) sample16 (env_ok_succeeds sample16) [] 0⟩

/-- C2: every octet is read as an unsigned value, and the text emitted by a successful write
request, line breaks removed, is the concatenation, in input order and without separator, of one
two-character group per octet `b`: the uppercase digit of `b / 16`, then that of `b % 16`.
A first write of the octet `0x0A` leaves `"0A\n"`, one of `0xFF` leaves `"FF\n"`. -/
theorem two_uppercase_digits_per_byte (env : Env) (bs : List Byte) (hs : Succeeds env bs)
    (disk : List Char) (pos : Int) :
    (∀ b : Byte, to_unsigned_char (char_of_byte b) = b.val ∧
      (sprintf_02X (to_unsigned_char (char_of_byte b))).take 2 =
        [upper_digits.getD (b.val / 16) '0', upper_digits.getD (b.val % 16) '0']) ∧
    (∃ r emitted, loop_write env disk bs.length pos = some r ∧
      r.disk = (if pos = 0 then [] else disk) ++ emitted ∧
      emitted.filter (· ≠ '\n') =
        (bs.map fun b =>
          [upper_digits.getD (b.val / 16) '0', upper_digits.getD (b.val % 16) '0']).flatten) ∧
    (loop_write (env_ok [0x0A]) disk 1 0).map (·.disk) = some ['0', 'A', '\n'] ∧
    (loop_write (env_ok [0xFF]) disk 1 0).map (·.disk) = some ['F', 'F', '\n'] := by
  refine ⟨?_, ?_, rfl, rfl⟩
  · intro b
    refine ⟨?_, sprintf_take_two b⟩
    unfold to_unsigned_char char_of_byte
    split <;> omega
  · obtain ⟨cs, h⟩ := loop_write_ok env bs hs disk pos
    refine ⟨_, hex_lines 0 bs ++ forced_break bs.length, h, ?_, ?_⟩
    · simp [opened]
    · rw [List.filter_append, hex_lines_filter]
      have hf : (forced_break bs.length).filter (· ≠ '\n') = [] := by
        unfold forced_break
        split <;> simp
      rw [hf, List.append_nil]
      rfl

/-- A first write of `0xFF, 0xAB, 0x10` meets the hypotheses of
`two_uppercase_digits_per_byte`. -/
theorem two_uppercase_digits_per_byte_witness :
    Succeeds (env_ok sample3) sample3 ∧
    ∃ r emitted, loop_write (env_ok sample3) ['x'] sample3.length 0 = some r ∧
      r.disk = (if (0 : Int) = 0 then [] else ['x']) ++ emitted ∧
      emitted.filter (· ≠ '\n') =
        (sample3.map fun b =>
          [upper_digits.getD (b.val / 16) '0', upper_digits.getD (b.val % 16) '0']).flatten :=
  ⟨env_ok_succeeds sample3,
    (two_uppercase_digits_per_byte (env_ok sample3) sample3 (env_ok_succeeds sample3)
      ['x'] 0).2.1⟩

/-- C3: the text emitted by one successful write request of `count` octets, line breaks removed,
has length `2 * count`, and each of its characters is one of `0-9`, `A-F`. -/
theorem stripped_length_and_alphabet (env : Env) (bs : List Byte) (hs : Succeeds env bs)
    (disk : List Char) (pos : Int) :
    ∃ r emitted, loop_write env disk bs.length pos = some r ∧
      r.disk = (if pos = 0 then [] else disk) ++ emitted ∧
      (emitted.filter (· ≠ '\n')).length = 2 * bs.length ∧
      ∀ c ∈ emitted.filter (· ≠ '\n'), c ∈ "0123456789ABCDEF".toList := by
  obtain ⟨cs, h⟩ := loop_write_ok env bs hs disk pos
  have hf : (hex_lines 0 bs ++ forced_break bs.length).filter (· ≠ '\n') =
      (bs.map hex_pair).flatten := by
    rw [List.filter_append, hex_lines_filter]
    unfold forced_break
    split <;> simp
  refine ⟨_, hex_lines 0 bs ++ forced_break bs.length, h, ?_, ?_, ?_⟩
  · simp [opened]
  · rw [hf, flatten_hex_pair_length]
  · intro c hc
    rw [hf] at hc
    exact flatten_hex_pair_mem bs c hc

/-- A first write of `0xFF, 0xAB, 0x10` meets the hypotheses of `stripped_length_and_alphabet`. -/
theorem stripped_length_and_alphabet_witness :
    Succeeds (env_ok sample3) sample3 ∧
    ∃ r emitted, loop_write (env_ok sample3) [] sample3.length 0 = some r ∧
      r.disk = (if (0 : Int) = 0 then [] else []) ++ emitted ∧
      (emitted.filter (· ≠ '\n')).length = 2 * sample3.length ∧
      ∀ c ∈ emitted.filter (· ≠ '\n'), c ∈ "0123456789ABCDEF".toList :=
  ⟨env_ok_succeeds sample3,
    stripped_length_and_alphabet (env_ok sample3) sample3 (env_ok_succeeds sample3) [] 0⟩

/-- The text of a non-empty request ends with the hex pair of its last octet, followed by a line
break when the length is a multiple of 16. -/
theorem hex_lines_last (bs : List Byte) (h0 : 0 < bs.length) :
    ∃ pre hi lo, hi ≠ '\n' ∧ lo ≠ '\n' ∧
      hex_lines 0 bs = pre ++ [hi, lo] ++ (if bs.length % 16 = 0 then ['\n'] else []) := by
  have hi : bs.length - 1 < bs.length := by omega
  have hd : bs.drop (bs.length - 1 + 1) = [] := List.drop_eq_nil_of_le (by omega)
  have hl : bs.length - 1 + 1 = bs.length := by omega
  refine ⟨hex_lines 0 (bs.take (bs.length - 1)), hex_digit_upper (bs[bs.length - 1].val / 16),
    hex_digit_upper (bs[bs.length - 1].val % 16), hex_digit_upper_ne_newline _,
    hex_digit_upper_ne_newline _, ?_⟩
  conv_lhs => rw [hex_lines_split bs (bs.length - 1) hi, hd, hl]
  simp [hex_lines, hex_pair]

/-- C4: the text emitted by one successful write request ends with a line break when
`count % 16 ≠ 0`; when `count % 16 = 0` and `count > 0` it ends with one line break, the
character before it is not a line break, and the text holds `count / 16` line breaks in all (those
of the 16-alignment rule, none added). A first write of `0x00 .. 0x0F` leaves
`"000102030405060708090A0B0C0D0E0F\n"`, a first write of `0xFF, 0xAB, 0x10` leaves `"FFAB10\n"`. -/
theorem trailing_break (env : Env) (bs : List Byte) (hs : Succeeds env bs)
    (disk : List Char) (pos : Int) :
    (∃ r emitted, loop_write env disk bs.length pos = some r ∧
      r.disk = (if pos = 0 then [] else disk) ++ emitted ∧
      (bs.length % 16 ≠ 0 → emitted.getLast? = some '\n') ∧
      (bs.length % 16 = 0 → 0 < bs.length →
        emitted.getLast? = some '\n' ∧ emitted.dropLast.getLast? ≠ some '\n' ∧
        emitted.count '\n' = bs.length / 16)) ∧
    (∀ env16, Succeeds env16 sample16 →
      (loop_write env16 disk 16 0).map (·.disk) =
        some "000102030405060708090A0B0C0D0E0F\n".toList) ∧
    (∀ env3, Succeeds env3 sample3 →
      (loop_write env3 disk 3 0).map (·.disk) = some "FFAB10\n".toList) := by
  refine ⟨?_, ?_, ?_⟩
  · obtain ⟨cs, h⟩ := loop_write_ok env bs hs disk pos
    refine ⟨_, hex_lines 0 bs ++ forced_break bs.length, h, ?_, ?_, ?_⟩
    · simp [opened]
    · intro hm
      simp [forced_break, hm]
    · intro hm h0
      obtain ⟨pre, hi, lo, hhi, hlo, hsplit⟩ := hex_lines_last bs h0
      have hfb : forced_break bs.length = [] := by simp [forced_break, hm]
      rw [hfb, List.append_nil]
      refine ⟨?_, ?_, ?_⟩
      · rw [hsplit]
        simp [hm]
      · rw [hsplit]
        simp only [hm, if_true]
        rw [List.dropLast_concat]
        simp
        exact hlo
      · rw [hex_lines_count]
        simp
  · intro env16 h16
    obtain ⟨cs, h⟩ := loop_write_ok env16 sample16 h16 disk 0
    have hl : sample16.length = 16 := rfl
    rw [hl] at h
    rw [h]
    rfl
  · intro env3 h3
    obtain ⟨cs, h⟩ := loop_write_ok env3 sample3 h3 disk 0
    have hl : sample3.length = 3 := rfl
    rw [hl] at h
    rw [h]
    rfl

/-- A first write of `0x00 .. 0x0F` over the old content `"x"` meets the hypotheses of
`trailing_break`. -/
theorem trailing_break_witness :
    Succeeds (env_ok sample16) sample16 ∧
    ∃ r emitted, loop_write (env_ok sample16) ['x'] sample16.length 0 = some r ∧
      r.disk = (if (0 : Int) = 0 then [] else ['x']) ++ emitted ∧
      (sample16.length % 16 ≠ 0 → emitted.getLast? = some '\n') ∧
      (sample16.length % 16 = 0 → 0 < sample16.length →
        emitted.getLast? = some '\n' ∧ emitted.dropLast.getLast? ≠ some '\n' ∧
        emitted.count '\n' = sample16.length / 16) :=
  ⟨env_ok_succeeds sample16,
    (trailing_break (env_ok sample16) sample16 (env_ok_succeeds sample16) ['x'] 0).1⟩

/-! ## The loops in arbitrary surroundings -/

theorem kernel_write_extends (env : Env) (f : OutFile) (s : List Char) :
    ∃ t, (kernel_write env f s).data = f.data ++ t := by
  unfold kernel_write
  split
  · exact ⟨[], by simp⟩
  · exact ⟨s, rfl⟩

theorem for_loop_extends (env : Env) (bw : Nat) (kbuf : List Byte) (i : Nat) (f : OutFile) :
    ∃ t, (for_loop env bw kbuf i f).data = f.data ++ t := by
  induction kbuf generalizing i f with
  | nil => exact ⟨[], by simp [for_loop]⟩
  | cons c rest ih =>
    simp only [for_loop]
    obtain ⟨t1, h1⟩ := kernel_write_extends env f
      ((sprintf_02X (to_unsigned_char (char_of_byte c))).take 2)
    by_cases hm : (i + bw + 1) % 16 = 0
    · obtain ⟨t2, h2⟩ := kernel_write_extends env
        (kernel_write env f ((sprintf_02X (to_unsigned_char (char_of_byte c))).take 2)) ['\n']
      obtain ⟨t3, h3⟩ := ih (i + 1) (kernel_write env
        (kernel_write env f ((sprintf_02X (to_unsigned_char (char_of_byte c))).take 2)) ['\n'])
      refine ⟨t1 ++ t2 ++ t3, ?_⟩
      rw [if_pos hm, h3, h2, h1]
      simp
    · obtain ⟨t3, h3⟩ := ih (i + 1)
        (kernel_write env f ((sprintf_02X (to_unsigned_char (char_of_byte c))).take 2))
      refine ⟨t1 ++ t3, ?_⟩
      rw [if_neg hm, h3, h1]
      simp

/-- With a budget of `remaining` iterations and a positive chunk size the `while` loop is left
through its condition or through the fault exit, and the file has only grown. -/
theorem while_loop_exits (env : Env) (chunk_size fuel remaining bw : Nat) (f : OutFile)
    (copies : List (Nat × Nat)) (hfuel : remaining ≤ fuel)
    (hchunk : 0 < remaining → 0 < chunk_size) :
    ∃ f1 cs, (while_loop env chunk_size fuel remaining bw f copies = .done f1 cs ∨
        while_loop env chunk_size fuel remaining bw f copies = .fault f1 cs) ∧
      ∃ t, f1.data = f.data ++ t := by
  induction fuel generalizing remaining bw f copies with
  | zero =>
    have h0 : remaining = 0 := by omega
    subst h0
    exact ⟨f, copies, Or.inl (by simp [while_loop]), [], by simp⟩
  | succ fuel ih =>
    by_cases hrem : remaining > 0
    · have hc := hchunk hrem
      cases hcopy : copy_from_user env.user bw (min remaining chunk_size) with
      | none =>
        exact ⟨f, copies ++ [(bw, min remaining chunk_size)],
          Or.inr (by simp [while_loop, hrem, hcopy]), [], by simp⟩
      | some kbuf =>
        obtain ⟨f1, cs, h1, t1, h2⟩ := ih (remaining - min remaining chunk_size)
          (bw + min remaining chunk_size) (for_loop env bw kbuf 0 f)
          (copies ++ [(bw, min remaining chunk_size)]) (by omega) (fun _ => hc)
        obtain ⟨t0, h0⟩ := for_loop_extends env bw kbuf 0 f
        refine ⟨f1, cs, ?_, t0 ++ t1, ?_⟩
        · simp only [while_loop, hrem, if_true, hcopy]
          exact h1
        · rw [h2, h0]
          simp
    · have h0 : remaining = 0 := by omega
      subst h0
      exact ⟨f, copies, Or.inl (by simp [while_loop]), [], by simp⟩

/-- When the caller memory can be read, the `while` loop is left through its condition. -/
theorem while_loop_reads (env : Env) (bs : List Byte) (hr : Reads env bs)
    (chunk_size fuel remaining bw : Nat) (f : OutFile) (copies : List (Nat × Nat))
    (hfuel : remaining ≤ fuel) (hchunk : 0 < remaining → 0 < chunk_size)
    (hlen : bw + remaining = bs.length) :
    ∃ f1 cs, while_loop env chunk_size fuel remaining bw f copies = .done f1 cs := by
  induction fuel generalizing remaining bw f copies with
  | zero =>
    have h0 : remaining = 0 := by omega
    subst h0
    exact ⟨f, copies, by simp [while_loop]⟩
  | succ fuel ih =>
    by_cases hrem : remaining > 0
    · have hc := hchunk hrem
      have hcopy := copy_from_user_ok env bs hr (min remaining chunk_size) bw (by omega)
      obtain ⟨f1, cs, h1⟩ := ih (remaining - min remaining chunk_size)
        (bw + min remaining chunk_size)
        (for_loop env bw ((bs.drop bw).take (min remaining chunk_size)) 0 f)
        (copies ++ [(bw, min remaining chunk_size)]) (by omega) (fun _ => hc) (by omega)
      refine ⟨f1, cs, ?_⟩
      simp only [while_loop, hrem, if_true, hcopy]
      exact h1
    · have h0 : remaining = 0 := by omega
      subst h0
      exact ⟨f, copies, by simp [while_loop]⟩

/-- The function `loop_write` returns in all surroundings; it opens the file in the mode of
`open_flags`, leaves the offset alone or adds `count` to it, and at a non-zero offset only adds
text to the file. -/
theorem loop_write_returns (env : Env) (disk : List Char) (count : Nat) (pos : Int) :
    ∃ r, loop_write env disk count pos = some r ∧ r.flags = open_flags pos ∧
      (r.pos = pos ∨ r.pos = loff_add pos count) ∧ (pos ≠ 0 → ∃ t, r.disk = disk ++ t) := by
  unfold loop_write
  cases hopen : env.open_errno with
  | some e =>
    simp only [filp_open, hopen]
    exact ⟨_, rfl, rfl, Or.inl rfl, fun _ => ⟨[], by simp⟩⟩
  | none =>
    have hfo : filp_open env disk (open_flags pos) =
        .ok { data := opened pos disk, nwrites := 0 } := by
      unfold filp_open open_flags opened
      rw [hopen]
      by_cases hp : pos = 0 <;> simp [hp]
    simp only [hfo]
    cases halloc : env.kmalloc_fails with
    | true =>
      simp only [if_true]
      refine ⟨_, rfl, rfl, Or.inl rfl, fun hp => ⟨[], ?_⟩⟩
      simp [opened, hp]
    | false =>
      obtain ⟨f1, cs, hwl, t, ht⟩ := while_loop_exits env (calculate_chunk_size count) count
        count 0 { data := opened pos disk, nwrites := 0 } [] (Nat.le_refl _)
        (calculate_chunk_size_pos count)
      rcases hwl with hwl | hwl
      · simp only [hwl]
        refine ⟨_, rfl, rfl, Or.inr rfl, fun hp => ?_⟩
        by_cases hm : count % 16 = 0
        · refine ⟨t, ?_⟩
          simp [hm, ht, opened, hp]
        · obtain ⟨t2, h2⟩ := kernel_write_extends env f1 ['\n']
          refine ⟨t ++ t2, ?_⟩
          simp [hm, h2, ht, opened, hp]
      · simp only [hwl]
        refine ⟨_, rfl, rfl, Or.inl rfl, fun hp => ⟨t, ?_⟩⟩
        simp [ht, opened, hp]

/-- When the open and the allocation succeed and the caller memory can be read, `loop_write`
reaches its last line. -/
theorem loop_write_reads (env : Env) (bs : List Byte) (hopen : env.open_errno = none)
    (halloc : env.kmalloc_fails = false) (hr : Reads env bs) (disk : List Char) (pos : Int) :
    ∃ r, loop_write env disk bs.length pos = some r ∧ r.retval = to_ssize_t bs.length ∧
      r.pos = loff_add pos bs.length ∧ r.flags = open_flags pos := by
  have hfo : filp_open env disk (open_flags pos) =
      .ok { data := opened pos disk, nwrites := 0 } := by
    unfold filp_open open_flags opened
    rw [hopen]
    by_cases hp : pos = 0 <;> simp [hp]
  obtain ⟨f1, cs, h1⟩ := while_loop_reads env bs hr (calculate_chunk_size bs.length)
    bs.length bs.length 0 { data := opened pos disk, nwrites := 0 } [] (Nat.le_refl _)
    (calculate_chunk_size_pos _) (by omega)
  simp only [loop_write, hfo, halloc, h1]
  exact ⟨_, rfl, rfl, rfl, rfl⟩

/-! ## Offsets, open modes and sessions -/

theorem loff_add_ne_zero (count : Nat) (h0 : 0 < count) (h : InRange 0 count) :
    loff_add 0 count ≠ 0 := by
  rw [loff_add_in_range 0 count h]
  omega

/-- C5, as the code has it: the line alignment restarts with every write request. After two
successful writes `A` then `B` of one session (`A` its first write) the file holds the reference
text of `A` followed by that of `B`, and inside the text of `B` the line break follows the octet
of index `i` of `B` if and only if `(i + 1) % 16 = 0`, whatever the number of octets written
before. -/
theorem alignment_restarts_each_request (envA envB : Env) (A B : List Byte)
    (hA : Succeeds envA A) (hB : Succeeds envB B) (hrange : InRange 0 A.length)
    (disk : List Char) :
    ∃ r1 r2 body, session disk 0 [(envA, A.length), (envB, B.length)] = some [r1, r2] ∧
      r1.disk = reference_transcode A ∧
      r2.disk = reference_transcode A ++ reference_transcode B ∧
      r2.disk = r1.disk ++ body ++ (if B.length % 16 ≠ 0 then ['\n'] else []) ∧
      ∀ i (hi : i < B.length),
        ((body.take (2 * i + i / 16)).filter (· ≠ '\n')).length = 2 * i ∧
        body[2 * i + i / 16]? = some (hex_digit_upper (B[i].val / 16)) ∧
        body[2 * i + i / 16 + 1]? = some (hex_digit_upper (B[i].val % 16)) ∧
        (body[2 * i + i / 16 + 2]? = some '\n' ↔ (i + 1) % 16 = 0) := by
  obtain ⟨cs1, h1⟩ := loop_write_ok envA A hA disk 0
  have hd1 : opened 0 disk ++ hex_lines 0 A ++ forced_break A.length = reference_transcode A := by
    simp [opened, reference_transcode]
  rw [hd1] at h1
  obtain ⟨cs2, h2⟩ := loop_write_ok envB B hB (reference_transcode A) (loff_add 0 A.length)
  have hd2 : opened (loff_add 0 A.length) (reference_transcode A) = reference_transcode A := by
    by_cases hA0 : A.length = 0
    · have hnil : A = [] := List.length_eq_zero.mp hA0
      subst hnil
      simp [opened, reference_transcode, hex_lines, forced_break]
    · have hne := loff_add_ne_zero A.length (by omega) hrange
      simp [opened, hne]
  rw [hd2] at h2
  have hsess : session disk 0 [(envA, A.length), (envB, B.length)] = some
      [{ retval := to_ssize_t A.length, pos := loff_add 0 A.length,
         disk := reference_transcode A, flags := open_flags 0, copies := cs1 },
       { retval := to_ssize_t B.length, pos := loff_add (loff_add 0 A.length) B.length,
         disk := reference_transcode A ++ hex_lines 0 B ++ forced_break B.length,
         flags := open_flags (loff_add 0 A.length), copies := cs2 }] := by
    simp only [session, h1, h2]
  refine ⟨_, _, hex_lines 0 B, hsess, rfl, ?_, rfl, fun i hi => hex_lines_at B i hi⟩
  simp [reference_transcode]

/-- Ten octets, then ten more, meet the hypotheses of `alignment_restarts_each_request`. -/
theorem alignment_restarts_each_request_witness :
    Succeeds (env_ok sample10a) sample10a ∧ Succeeds (env_ok sample10b) sample10b ∧
    InRange 0 sample10a.length ∧
    ∃ r1 r2 body, session [] 0 [(env_ok sample10a, sample10a.length),
        (env_ok sample10b, sample10b.length)] = some [r1, r2] ∧
      r1.disk = reference_transcode sample10a ∧
      r2.disk = reference_transcode sample10a ++ reference_transcode sample10b ∧
      r2.disk = r1.disk ++ body ++ (if sample10b.length % 16 ≠ 0 then ['\n'] else []) ∧
      ∀ i (hi : i < sample10b.length),
        ((body.take (2 * i + i / 16)).filter (· ≠ '\n')).length = 2 * i ∧
        body[2 * i + i / 16]? = some (hex_digit_upper (sample10b[i].val / 16)) ∧
        body[2 * i + i / 16 + 1]? = some (hex_digit_upper (sample10b[i].val % 16)) ∧
        (body[2 * i + i / 16 + 2]? = some '\n' ↔ (i + 1) % 16 = 0) :=
  ⟨env_ok_succeeds sample10a, env_ok_succeeds sample10b, by decide,
    alignment_restarts_each_request (env_ok sample10a) (env_ok sample10b) sample10a sample10b
      (env_ok_succeeds sample10a) (env_ok_succeeds sample10b) (by decide) []⟩

/-- C5 fails as stated: after a write of the ten octets `0x00 .. 0x09` and a write of the ten
octets `0x0A .. 0x13` in one session, the sixteenth octet of the session (`0x0F`, cumulative
position 15) has its hex pair at positions 31 and 32 of the file, and the character after it is
not a line break although `(15 + 1) % 16 = 0`. -/
theorem cumulative_alignment_counterexample :
    ∃ r1 r2, session [] 0 [(env_ok sample10a, 10), (env_ok sample10b, 10)] = some [r1, r2] ∧
      r2.disk = "00010203040506070809\n0A0B0C0D0E0F10111213\n".toList ∧
      (15 + 1) % 16 = 0 ∧ r2.disk[31]? = some '0' ∧ r2.disk[32]? = some 'F' ∧
      r2.disk[33]? ≠ some '\n' :=
  ⟨_, _, rfl, rfl, rfl, rfl, rfl, by decide⟩

/-- C6: a write request of `count` octets whose open, allocation and copies succeed returns
`count` and leaves the logical offset at its previous value plus `count`. The offsets are those
a write can be called with: `*pos ≥ 0` and `*pos + count` fits a `loff_t`. -/
theorem returns_count_and_advances (env : Env) (bs : List Byte)
    (hopen : env.open_errno = none) (halloc : env.kmalloc_fails = false) (hr : Reads env bs)
    (disk : List Char) (pos : Int) (hrange : InRange pos bs.length) :
    ∃ r, loop_write env disk bs.length pos = some r ∧ r.retval = (bs.length : Int) ∧
      r.pos = pos + (bs.length : Int) := by
  obtain ⟨r, h, hret, hpos, _⟩ := loop_write_reads env bs hopen halloc hr disk pos
  have hsmall : bs.length < 2 ^ 63 := by
    obtain ⟨h0, h1⟩ := hrange
    omega
  exact ⟨r, h, by rw [hret, to_ssize_t_small _ hsmall],
    by rw [hpos, loff_add_in_range pos bs.length hrange]⟩

/-- A write of three octets at offset 10 meets the hypotheses of `returns_count_and_advances`. -/
theorem returns_count_and_advances_witness :
    (env_ok sample3).open_errno = none ∧ (env_ok sample3).kmalloc_fails = false ∧
    Reads (env_ok sample3) sample3 ∧ InRange 10 sample3.length ∧
    ∃ r, loop_write (env_ok sample3) ['x'] sample3.length 10 = some r ∧
      r.retval = (sample3.length : Int) ∧ r.pos = 10 + (sample3.length : Int) :=
  ⟨rfl, rfl, fun _ _ => rfl, by decide,
    returns_count_and_advances (env_ok sample3) sample3 rfl rfl (fun _ _ => rfl) ['x'] 10
      (by decide)⟩

/-- C7: a successful write of the octets `bs` at logical offset 0 leaves the same file content
whatever the file held before and whatever the (failure-free) surroundings: the reference text of
`bs` alone. -/
theorem first_write_discards_prior_content (env1 env2 : Env) (bs : List Byte)
    (h1 : Succeeds env1 bs) (h2 : Succeeds env2 bs) (disk1 disk2 : List Char) :
    ∃ r1 r2, loop_write env1 disk1 bs.length 0 = some r1 ∧
      loop_write env2 disk2 bs.length 0 = some r2 ∧
      r1.disk = r2.disk ∧ r1.disk = reference_transcode bs := by
  obtain ⟨cs1, e1⟩ := loop_write_ok env1 bs h1 disk1 0
  obtain ⟨cs2, e2⟩ := loop_write_ok env2 bs h2 disk2 0
  refine ⟨_, _, e1, e2, ?_, ?_⟩
  · simp [opened]
  · simp [opened, reference_transcode]

/-- Two first writes of `0xFF, 0xAB, 0x10` over different old contents meet the hypotheses of
`first_write_discards_prior_content`. -/
theorem first_write_discards_prior_content_witness :
    Succeeds (env_ok sample3) sample3 ∧
    ∃ r1 r2, loop_write (env_ok sample3) ['o', 'l', 'd'] sample3.length 0 = some r1 ∧
      loop_write (env_ok sample3) [] sample3.length 0 = some r2 ∧
      r1.disk = r2.disk ∧ r1.disk = reference_transcode sample3 :=
  ⟨env_ok_succeeds sample3,
    first_write_discards_prior_content (env_ok sample3) (env_ok sample3) sample3
      (env_ok_succeeds sample3) (env_ok_succeeds sample3) ['o', 'l', 'd'] []⟩

/-- C8: a write request issued at a non-zero logical offset opens the file in append mode, and
the content before the write is an initial part of the content after it, whether the request
succeeds or fails; the file is opened in truncate mode only at logical offset 0. -/
theorem append_mode_at_nonzero_offset (env : Env) (disk : List Char) (count : Nat) (pos : Int) :
    ∃ r, loop_write env disk count pos = some r ∧
      (pos ≠ 0 → r.flags = OpenMode.append ∧ ∃ t, r.disk = disk ++ t) ∧
      (r.flags = OpenMode.truncate ↔ pos = 0) := by
  obtain ⟨r, h, hflags, _, hext⟩ := loop_write_returns env disk count pos
  refine ⟨r, h, fun hp => ⟨?_, hext hp⟩, ?_⟩
  · rw [hflags]
    simp [open_flags, hp]
  · rw [hflags]
    by_cases hp : pos = 0 <;> simp [open_flags, hp]

/-- From a positive logical offset on, every write request of a session opens the file in append
mode, as long as the offsets fit a `loff_t`. -/
theorem session_appends (rest : List (Env × Nat)) (disk : List Char) (pos : Int) (h0 : 0 < pos)
    (hrange : pos + (((rest.map Prod.snd).sum : Nat) : Int) < 2 ^ 63) :
    ∃ rs, session disk pos rest = some rs ∧ rs.length = rest.length ∧
      ∀ r ∈ rs, r.flags = OpenMode.append := by
  induction rest generalizing disk pos with
  | nil => exact ⟨[], rfl, rfl, by simp⟩
  | cons q rest ih =>
    obtain ⟨env, count⟩ := q
    simp only [List.map_cons, List.sum_cons] at hrange
    obtain ⟨r, h, hflags, hpos, _⟩ := loop_write_returns env disk count pos
    have hin : InRange pos count := ⟨by omega, by omega⟩
    rw [loff_add_in_range pos count hin] at hpos
    obtain ⟨rs, hrs, hlen, hall⟩ := ih r.disk r.pos (by omega) (by omega)
    refine ⟨r :: rs, ?_, by simp [hlen], ?_⟩
    · simp only [session, h, hrs]
    · intro r1 hr1
      rcases List.mem_cons.mp hr1 with hr1 | hr1
      · rw [hr1, hflags]
        have hp : pos ≠ 0 := by omega
        simp [open_flags, hp]
      · exact hall r1 hr1

/-- C9, as the code has it: the mode is chosen from the logical offset. After a successful first
write of at least one octet, every later write request of the session, successful or not and of
any length, opens the file in append mode (the offsets fitting a `loff_t`). -/
theorem append_after_nonempty_first_write (env : Env) (bs : List Byte)
    (hopen : env.open_errno = none) (halloc : env.kmalloc_fails = false) (hr : Reads env bs)
    (hne : 0 < bs.length) (rest : List (Env × Nat))
    (hrange : bs.length + (rest.map Prod.snd).sum < 2 ^ 63) (disk : List Char) :
    ∃ r rs, session disk 0 ((env, bs.length) :: rest) = some (r :: rs) ∧
      r.flags = OpenMode.truncate ∧ r.retval = (bs.length : Int) ∧ rs.length = rest.length ∧
      ∀ r1 ∈ rs, r1.flags = OpenMode.append := by
  obtain ⟨r, h, hret, hpos, hflags⟩ := loop_write_reads env bs hopen halloc hr disk 0
  have hin : InRange 0 bs.length := ⟨by omega, by omega⟩
  rw [loff_add_in_range 0 bs.length hin] at hpos
  rw [to_ssize_t_small _ (by omega)] at hret
  obtain ⟨rs, hrs, hlen, hall⟩ := session_appends rest r.disk r.pos (by omega) (by omega)
  refine ⟨r, rs, ?_, ?_, hret, hlen, hall⟩
  · simp only [session, h, hrs]
  · rw [hflags]
    rfl

/-- A first write of three octets followed by an empty write and a write of ten octets meets the
hypotheses of `append_after_nonempty_first_write`. -/
theorem append_after_nonempty_first_write_witness :
    (env_ok sample3).open_errno = none ∧ (env_ok sample3).kmalloc_fails = false ∧
    Reads (env_ok sample3) sample3 ∧ 0 < sample3.length ∧
    sample3.length + ([(env_ok [], 0), (env_ok sample10a, 10)].map Prod.snd).sum < 2 ^ 63 ∧
    ∃ r rs, session ['x'] 0 ((env_ok sample3, sample3.length) ::
        [(env_ok [], 0), (env_ok sample10a, 10)]) = some (r :: rs) ∧
      r.flags = OpenMode.truncate ∧ r.retval = (sample3.length : Int) ∧
      rs.length = [(env_ok [], 0), (env_ok sample10a, 10)].length ∧
      ∀ r1 ∈ rs, r1.flags = OpenMode.append :=
  ⟨rfl, rfl, fun _ _ => rfl, by decide, by decide,
    append_after_nonempty_first_write (env_ok sample3) sample3 rfl rfl (fun _ _ => rfl)
      (by decide) [(env_ok [], 0), (env_ok sample10a, 10)] (by decide) ['x']⟩

/-- C9 fails as stated: a first write of zero octets succeeds (it returns 0) and leaves the
logical offset at 0, so the next write of the session opens the file in truncate mode. -/
theorem truncate_after_empty_first_write_counterexample :
    ∃ r1 r2, session ['o', 'l', 'd'] 0 [(env_ok [], 0), (env_ok sample3, 3)] = some [r1, r2] ∧
      r1.retval = 0 ∧ r1.pos = 0 ∧ r2.flags = OpenMode.truncate :=
  ⟨_, _, rfl, rfl, rfl, rfl⟩

/-- C10, as the code has it: a write of zero octets whose open and allocation succeed returns 0,
copies no chunk and leaves the logical offset where it was; it leaves the file content unchanged
at a non-zero logical offset and empties the file at logical offset 0. -/
theorem zero_length_write (env : Env) (hopen : env.open_errno = none)
    (halloc : env.kmalloc_fails = false) (disk : List Char) (pos : Int)
    (hrange : InRange pos 0) :
    ∃ r, loop_write env disk 0 pos = some r ∧ r.retval = 0 ∧ r.copies = [] ∧ r.pos = pos ∧
      (pos ≠ 0 → r.disk = disk) ∧ (pos = 0 → r.disk = []) := by
  have hfo : filp_open env disk (open_flags pos) =
      .ok { data := opened pos disk, nwrites := 0 } := by
    unfold filp_open open_flags opened
    rw [hopen]
    by_cases hp : pos = 0 <;> simp [hp]
  have hpos : loff_add pos 0 = pos := by
    rw [loff_add_in_range pos 0 hrange]
    simp
  refine ⟨{ retval := 0, pos := pos, disk := opened pos disk, flags := open_flags pos,
            copies := [] }, ?_, rfl, rfl, rfl, ?_, ?_⟩
  · simp only [loop_write, hfo, halloc, while_loop, hpos]
    rfl
  · intro hp
    simp [opened, hp]
  · intro hp
    simp [opened, hp]

/-- A write of zero octets at offset 5 meets the hypotheses of `zero_length_write`. -/
theorem zero_length_write_witness :
    (env_ok []).open_errno = none ∧ (env_ok []).kmalloc_fails = false ∧ InRange 5 0 ∧
    ∃ r, loop_write (env_ok []) ['o', 'l', 'd'] 0 5 = some r ∧ r.retval = 0 ∧ r.copies = [] ∧
      r.pos = 5 ∧ ((5 : Int) ≠ 0 → r.disk = ['o', 'l', 'd']) ∧ ((5 : Int) = 0 → r.disk = []) :=
  ⟨rfl, rfl, by decide, zero_length_write (env_ok []) rfl rfl ['o', 'l', 'd'] 5 (by decide)⟩

/-- C10 fails as stated: a write of zero octets at logical offset 0 over a file holding `"old"`
returns 0 and copies nothing, but leaves the file empty. -/
theorem zero_length_write_counterexample :
    ∃ r, loop_write (env_ok []) ['o', 'l', 'd'] 0 0 = some r ∧ r.retval = 0 ∧ r.pos = 0 ∧
      r.copies = [] ∧ r.disk = [] ∧ r.disk ≠ ['o', 'l', 'd'] :=
  ⟨_, rfl, rfl, rfl, rfl, rfl, by decide⟩

/-! ## Failing requests -/

theorem filp_open_ok (env : Env) (hopen : env.open_errno = none) (disk : List Char)
    (pos : Int) :
    filp_open env disk (open_flags pos) = .ok { data := opened pos disk, nwrites := 0 } := by
  unfold filp_open open_flags opened
  rw [hopen]
  by_cases hp : pos = 0 <;> simp [hp]

/-- When `m` more chunks can be read and the copy of the chunk after them fails, the `while`
loop is left through its fault exit, with the text of the chunks read and nothing else added to
the file. -/
theorem while_loop_fault (env : Env) (pre : List Byte) (hr : Reads env pre) (hw : WritesOk env)
    (chunk_size : Nat) (hc : 0 < chunk_size) (m : Nat) :
    ∀ (fuel remaining bw : Nat) (f : OutFile) (copies : List (Nat × Nat)),
      remaining ≤ fuel → bw + m * chunk_size = pre.length → m * chunk_size < remaining →
      copy_from_user env.user pre.length (min (remaining - m * chunk_size) chunk_size) = none →
      ∃ f1 cs, while_loop env chunk_size fuel remaining bw f copies = .fault f1 cs ∧
        f1.data = f.data ++ hex_lines bw (pre.drop bw) ∧ cs.length = copies.length + m + 1 := by
  induction m with
  | zero =>
    intro fuel remaining bw f copies hfuel hbw hrem hfail
    simp only [Nat.zero_mul, Nat.add_zero, Nat.sub_zero] at hbw hrem hfail
    obtain ⟨fuel1, hf1⟩ : ∃ n, fuel = n + 1 := ⟨fuel - 1, by omega⟩
    subst hf1
    subst hbw
    have hd : pre.drop pre.length = [] := List.drop_eq_nil_of_le (Nat.le_refl _)
    refine ⟨f, copies ++ [(pre.length, min remaining chunk_size)], ?_, ?_, ?_⟩
    · simp [while_loop, hrem, hfail]
    · simp [hd, hex_lines]
    · simp
  | succ m ih =>
    intro fuel remaining bw f copies hfuel hbw hrem hfail
    have hmul : (m + 1) * chunk_size = m * chunk_size + chunk_size := Nat.succ_mul m chunk_size
    rw [hmul] at hbw hrem hfail
    obtain ⟨fuel1, hf1⟩ : ∃ n, fuel = n + 1 := ⟨fuel - 1, by omega⟩
    subst hf1
    have hmin : min remaining chunk_size = chunk_size := by omega
    have hcopy := copy_from_user_ok env pre hr chunk_size bw (by omega)
    have hsub : remaining - chunk_size - m * chunk_size =
        remaining - (m * chunk_size + chunk_size) := by omega
    obtain ⟨f1, cs, h1, h2, h3⟩ := ih fuel1 (remaining - chunk_size) (bw + chunk_size)
      (for_loop env bw ((pre.drop bw).take chunk_size) 0 f)
      (copies ++ [(bw, chunk_size)]) (by omega) (by omega) (by omega) (by rw [hsub]; exact hfail)
    refine ⟨f1, cs, ?_, ?_, ?_⟩
    · have hpos : remaining > 0 := by omega
      simp only [while_loop, hpos, if_true, hmin, hcopy]
      exact h1
    · rw [h2, for_loop_ok env hw]
      have hsplit : pre.drop bw = (pre.drop bw).take chunk_size ++ pre.drop (bw + chunk_size) := by
        rw [← List.drop_drop, List.take_append_drop]
      conv_rhs => rw [hsplit, hex_lines_append]
      have hl : ((pre.drop bw).take chunk_size).length = chunk_size := by
        rw [List.length_take, List.length_drop]
        omega
      rw [hl]
      simp
    · rw [h3]
      simp
      omega

/-- C11: when the chunks `0 .. k-1` of a request are read (they hold the octets `pre`) and the
copy of chunk `k` fails, `loop_write` returns `-EFAULT`, leaves the logical offset where it was,
and leaves in the file the content after the open followed by the text of the octets of the
chunks `0 .. k-1`: nothing of chunk `k` or of a later chunk, no end-of-request line break, and no
rollback. It has called `copy_from_user` `k + 1` times. -/
theorem copy_fault_aborts_without_rollback (env : Env) (hopen : env.open_errno = none)
    (halloc : env.kmalloc_fails = false) (hw : WritesOk env) (pre : List Byte)
    (hr : Reads env pre) (count k : Nat) (hk : pre.length = k * calculate_chunk_size count)
    (hlt : pre.length < count)
    (hfail : copy_from_user env.user pre.length
      (min (count - pre.length) (calculate_chunk_size count)) = none)
    (disk : List Char) (pos : Int) :
    ∃ r, loop_write env disk count pos = some r ∧ r.retval = -EFAULT ∧ r.pos = pos ∧
      r.disk = (if pos = 0 then [] else disk) ++ hex_lines 0 pre ∧ r.copies.length = k + 1 := by
  have hc : 0 < calculate_chunk_size count := calculate_chunk_size_pos count (by omega)
  obtain ⟨f1, cs, h1, h2, h3⟩ := while_loop_fault env pre hr hw (calculate_chunk_size count) hc k
    count count 0 { data := opened pos disk, nwrites := 0 } [] (Nat.le_refl _) (by omega)
    (by omega) (by rw [← hk]; exact hfail)
  refine ⟨{ retval := -EFAULT, pos := pos, disk := f1.data, flags := open_flags pos,
            copies := cs }, ?_, rfl, rfl, ?_, ?_⟩
  · simp only [loop_write, filp_open_ok env hopen, halloc, h1]
    rfl
  · simp only [h2, List.drop_zero]
    rfl
  · simpa using h3

theorem sample4096_length : sample4096.length = 4096 := List.length_replicate _ _

theorem sample4096_chunk : sample4096.length = 1 * calculate_chunk_size 4097 := by
  rw [sample4096_length]
  decide

theorem sample4096_fault :
    copy_from_user (env_ok sample4096).user sample4096.length
      (min (4097 - sample4096.length) (calculate_chunk_size 4097)) = none := by
  have h1 : min (4097 - sample4096.length) (calculate_chunk_size 4097) = 1 := by
    rw [sample4096_length]
    decide
  have h2 : (env_ok sample4096).user sample4096.length = none := by
    show sample4096[sample4096.length]? = none
    exact List.getElem?_eq_none (Nat.le_refl _)
  rw [h1]
  simp only [copy_from_user, h2]

/-- A request of 4097 octets of which the caller memory holds only the first 4096 meets the
hypotheses of `copy_fault_aborts_without_rollback` with `k = 1`. -/
theorem copy_fault_aborts_without_rollback_witness :
    (env_ok sample4096).open_errno = none ∧ (env_ok sample4096).kmalloc_fails = false ∧
    WritesOk (env_ok sample4096) ∧ Reads (env_ok sample4096) sample4096 ∧
    sample4096.length = 1 * calculate_chunk_size 4097 ∧ sample4096.length < 4097 ∧
    copy_from_user (env_ok sample4096).user sample4096.length
      (min (4097 - sample4096.length) (calculate_chunk_size 4097)) = none ∧
    ∃ r, loop_write (env_ok sample4096) ['x'] 4097 7 = some r ∧ r.retval = -EFAULT ∧
      r.pos = 7 ∧ r.disk = (if (7 : Int) = 0 then [] else ['x']) ++ hex_lines 0 sample4096 ∧
      r.copies.length = 1 + 1 :=
  ⟨rfl, rfl, fun _ => rfl, fun _ _ => rfl, sample4096_chunk,
    by rw [sample4096_length]; decide, sample4096_fault,
    copy_fault_aborts_without_rollback (env_ok sample4096) rfl rfl (fun _ => rfl) sample4096
      (fun _ _ => rfl) 4097 1 sample4096_chunk (by rw [sample4096_length]; decide)
      sample4096_fault ['x'] 7⟩

/-! ## Appends that fail -/

theorem kernel_write_surviving (env : Env) (f : OutFile) (s : List Char) :
    (kernel_write env f s).data = f.data ++ (if env.write_fails f.nwrites then [] else s) ∧
    (kernel_write env f s).nwrites = f.nwrites + 1 := by
  unfold kernel_write
  split <;> simp [*]

theorem surviving_append (fails : Nat → Bool) (n : Nat) (l1 l2 : List (List Char)) :
    surviving fails n (l1 ++ l2) = surviving fails n l1 ++ surviving fails (n + l1.length) l2 := by
  induction l1 generalizing n with
  | nil => simp [surviving]
  | cons s l1 ih =>
    rw [List.cons_append]
    simp only [surviving, ih, List.length_cons, List.append_assoc]
    have h : n + 1 + l1.length = n + (l1.length + 1) := by omega
    rw [h]

theorem hex_appends_append (s : Nat) (as cs : List Byte) :
    hex_appends s (as ++ cs) = hex_appends s as ++ hex_appends (s + as.length) cs := by
  induction as generalizing s with
  | nil => simp [hex_appends]
  | cons a as ih =>
    have h : s + 1 + as.length = s + (as.length + 1) := by omega
    rw [List.cons_append]
    simp only [hex_appends, ih, List.length_cons, List.append_assoc, List.cons_append, h]

theorem hex_appends_flatten (s : Nat) (bs : List Byte) :
    (hex_appends s bs).flatten = hex_lines s bs := by
  induction bs generalizing s with
  | nil => rfl
  | cons b bs ih =>
    simp only [hex_appends, hex_lines, List.flatten_cons, List.flatten_append, ih]
    split <;> simp

theorem hex_appends_length (s : Nat) (bs : List Byte) :
    (hex_appends s bs).length = bs.length + ((s + bs.length) / 16 - s / 16) := by
  induction bs generalizing s with
  | nil => simp [hex_appends]
  | cons b bs ih =>
    simp only [hex_appends, List.length_cons, List.length_append, ih]
    split <;> simp <;> omega

theorem hex_appends_nonempty (s : Nat) (bs : List Byte) : ∀ a ∈ hex_appends s bs, 0 < a.length := by
  induction bs generalizing s with
  | nil => simp [hex_appends]
  | cons b bs ih =>
    intro a ha
    simp only [hex_appends, List.mem_cons, List.mem_append] at ha
    rcases ha with ha | ha | ha
    · subst ha
      simp [hex_pair]
    · split at ha
      · simp only [List.mem_singleton] at ha
        subst ha
        simp
      · simp at ha
    · exact ih (s + 1) a ha

theorem request_appends_flatten (bs : List Byte) :
    (request_appends bs).flatten = reference_transcode bs := by
  unfold request_appends reference_transcode forced_break
  rw [List.flatten_append, hex_appends_flatten]
  split <;> simp

theorem request_appends_length (bs : List Byte) :
    (request_appends bs).length =
      bs.length + bs.length / 16 + (if bs.length % 16 ≠ 0 then 1 else 0) := by
  unfold request_appends
  rw [List.length_append, hex_appends_length]
  split <;> simp

theorem request_appends_nonempty (bs : List Byte) : ∀ a ∈ request_appends bs, 0 < a.length := by
  intro a ha
  unfold request_appends at ha
  rcases List.mem_append.mp ha with ha | ha
  · exact hex_appends_nonempty 0 bs a ha
  · split at ha
    · simp only [List.mem_singleton] at ha
      subst ha
      simp
    · simp at ha

/-- A run of appends never leaves more than its characters, and leaves fewer when one of its
calls fails. -/
theorem surviving_length (fails : Nat → Bool) (n : Nat) (l : List (List Char))
    (hne : ∀ a ∈ l, 0 < a.length) :
    (surviving fails n l).length ≤ l.flatten.length ∧
    ∀ k, n ≤ k → k < n + l.length → fails k = true →
      (surviving fails n l).length < l.flatten.length := by
  induction l generalizing n with
  | nil =>
    refine ⟨by simp [surviving], ?_⟩
    intro k h1 h2 _
    simp only [List.length_nil] at h2
    omega
  | cons s l ih =>
    obtain ⟨ih1, ih2⟩ := ih (n + 1) (fun a ha => hne a (List.mem_cons_of_mem _ ha))
    have hs : 0 < s.length := hne s (by simp)
    have hhead : (if fails n = true then ([] : List Char) else s).length ≤ s.length := by
      split <;> simp
    simp only [surviving, List.length_append, List.flatten_cons, List.length_cons]
    refine ⟨by omega, ?_⟩
    intro k h1 h2 hk
    by_cases hkn : k = n
    · subst hkn
      simp only [hk, if_true, List.length_nil]
      omega
    · have := ih2 k (by omega) (by omega) hk
      omega

/-- The `for` loop in arbitrary surroundings: it makes the appends of its octets, and the file
gets the characters of those whose call does not fail. -/
theorem for_loop_surviving (env : Env) (bw : Nat) (kbuf : List Byte) (i : Nat) (f : OutFile) :
    (for_loop env bw kbuf i f).data =
      f.data ++ surviving env.write_fails f.nwrites (hex_appends (i + bw) kbuf) ∧
    (for_loop env bw kbuf i f).nwrites = f.nwrites + (hex_appends (i + bw) kbuf).length := by
  induction kbuf generalizing i f with
  | nil => simp [for_loop, hex_appends, surviving]
  | cons c rest ih =>
    have hidx : i + 1 + bw = i + bw + 1 := by omega
    obtain ⟨d1, n1⟩ := kernel_write_surviving env f
      ((sprintf_02X (to_unsigned_char (char_of_byte c))).take 2)
    rw [sprintf_take_two] at d1 n1
    by_cases hm : (i + bw + 1) % 16 = 0
    · obtain ⟨d2, n2⟩ := kernel_write_surviving env (kernel_write env f (hex_pair c)) ['\n']
      obtain ⟨d3, n3⟩ := ih (i + 1) (kernel_write env (kernel_write env f (hex_pair c)) ['\n'])
      rw [hidx] at d3 n3
      simp only [for_loop, sprintf_take_two, if_pos hm, hex_appends, surviving, d3, n3, d2, n2,
        d1, n1, List.cons_append, List.nil_append, List.length_cons, List.append_assoc]
      exact ⟨trivial, by omega⟩
    · obtain ⟨d3, n3⟩ := ih (i + 1) (kernel_write env f (hex_pair c))
      rw [hidx] at d3 n3
      simp only [for_loop, sprintf_take_two, if_neg hm, hex_appends, surviving, d3, n3,
        d1, n1, List.nil_append, List.length_cons, List.append_assoc]
      exact ⟨trivial, by omega⟩

/-- The `while` loop when the caller memory can be read, in arbitrary surroundings otherwise. -/
theorem while_loop_surviving (env : Env) (bs : List Byte) (hr : Reads env bs)
    (chunk_size fuel remaining bw : Nat) (f : OutFile) (copies : List (Nat × Nat))
    (hfuel : remaining ≤ fuel) (hchunk : 0 < remaining → 0 < chunk_size)
    (hlen : bw + remaining = bs.length) :
    ∃ f1 cs, while_loop env chunk_size fuel remaining bw f copies = .done f1 cs ∧
      f1.data = f.data ++ surviving env.write_fails f.nwrites (hex_appends bw (bs.drop bw)) ∧
      f1.nwrites = f.nwrites + (hex_appends bw (bs.drop bw)).length := by
  induction fuel generalizing remaining bw f copies with
  | zero =>
    have h0 : remaining = 0 := by omega
    subst h0
    have hd : bs.drop bw = [] := List.drop_eq_nil_of_le (by omega)
    exact ⟨f, copies, by simp [while_loop], by simp [hd, hex_appends, surviving],
      by simp [hd, hex_appends]⟩
  | succ fuel ih =>
    by_cases hrem : remaining > 0
    · have hc := hchunk hrem
      have hcopy := copy_from_user_ok env bs hr (min remaining chunk_size) bw (by omega)
      obtain ⟨d0, n0⟩ := for_loop_surviving env bw
        ((bs.drop bw).take (min remaining chunk_size)) 0 f
      obtain ⟨f1, cs, h1, h2, h3⟩ := ih (remaining - min remaining chunk_size)
        (bw + min remaining chunk_size)
        (for_loop env bw ((bs.drop bw).take (min remaining chunk_size)) 0 f)
        (copies ++ [(bw, min remaining chunk_size)]) (by omega) (fun _ => hc) (by omega)
      have hl : ((bs.drop bw).take (min remaining chunk_size)).length =
          min remaining chunk_size := by
        rw [List.length_take, List.length_drop]
        omega
      have hsplit : hex_appends bw (bs.drop bw) =
          hex_appends (0 + bw) ((bs.drop bw).take (min remaining chunk_size)) ++
          hex_appends (bw + min remaining chunk_size)
            (bs.drop (bw + min remaining chunk_size)) := by
        have e : bs.drop bw = (bs.drop bw).take (min remaining chunk_size) ++
            bs.drop (bw + min remaining chunk_size) := by
          rw [← List.drop_drop, List.take_append_drop]
        conv_lhs => rw [e, hex_appends_append, hl]
        simp
      refine ⟨f1, cs, ?_, ?_, ?_⟩
      · simp only [while_loop, hrem, if_true, hcopy]
        exact h1
      · rw [h2, d0, n0, hsplit, surviving_append, List.append_assoc]
      · rw [h3, n0, hsplit, List.length_append]
        omega
    · have h0 : remaining = 0 := by omega
      subst h0
      have hd : bs.drop bw = [] := List.drop_eq_nil_of_le (by omega)
      exact ⟨f, copies, by simp [while_loop], by simp [hd, hex_appends, surviving],
        by simp [hd, hex_appends]⟩

/-- When the open, the allocation and the copies succeed, `loop_write` reaches its last line
whatever appends fail, and the file gets the characters of every append of the request whose
call does not fail. -/
theorem loop_write_surviving (env : Env) (bs : List Byte) (hopen : env.open_errno = none)
    (halloc : env.kmalloc_fails = false) (hr : Reads env bs) (disk : List Char) (pos : Int) :
    ∃ r, loop_write env disk bs.length pos = some r ∧ r.retval = to_ssize_t bs.length ∧
      r.pos = loff_add pos bs.length ∧
      r.disk = opened pos disk ++ surviving env.write_fails 0 (request_appends bs) := by
  obtain ⟨f1, cs, h1, h2, h3⟩ := while_loop_surviving env bs hr (calculate_chunk_size bs.length)
    bs.length bs.length 0 { data := opened pos disk, nwrites := 0 } [] (Nat.le_refl _)
    (calculate_chunk_size_pos _) (by omega)
  simp only [List.drop_zero, Nat.zero_add] at h2 h3
  simp only [loop_write, filp_open_ok env hopen, halloc, h1]
  refine ⟨_, rfl, rfl, rfl, ?_⟩
  unfold request_appends
  rw [surviving_append, Nat.zero_add, ← h3]
  by_cases hm : bs.length % 16 = 0
  · simp [hm, h2, surviving]
  · obtain ⟨d, _⟩ := kernel_write_surviving env f1 ['\n']
    simp [hm, h2, surviving, d]

/-- C12, as the code has it: the result of `kernel_write` is never looked at, so a failing append
is not reported. When the open, the allocation and the copies succeed, a request for `count`
octets makes `count + count / 16` appends, plus one when `count % 16 ≠ 0`, whose characters
together are the full text of the request. When the `k`-th of these appends fails, whichever it
is, the request carries on: the file gets the characters of every append whose call does not
fail, in order, so it ends up shorter than with the full text, and the request still returns
`count` and adds `count` to the logical offset. -/
theorem append_failure_not_reported (env : Env) (bs : List Byte)
    (hopen : env.open_errno = none) (halloc : env.kmalloc_fails = false) (hr : Reads env bs)
    (k : Nat) (hk : k < bs.length + bs.length / 16 + (if bs.length % 16 ≠ 0 then 1 else 0))
    (hfail : env.write_fails k = true) (disk : List Char) (pos : Int)
    (hrange : InRange pos bs.length) :
    (request_appends bs).length =
      bs.length + bs.length / 16 + (if bs.length % 16 ≠ 0 then 1 else 0) ∧
    (request_appends bs).flatten = reference_transcode bs ∧
    ∃ r, loop_write env disk bs.length pos = some r ∧
      r.disk = (if pos = 0 then [] else disk) ++
        surviving env.write_fails 0 (request_appends bs) ∧
      r.disk.length < ((if pos = 0 then [] else disk) ++ reference_transcode bs).length ∧
      r.retval = (bs.length : Int) ∧ 0 ≤ r.retval ∧ r.pos = pos + (bs.length : Int) := by
  obtain ⟨r, h, hret, hpos, hdisk⟩ := loop_write_surviving env bs hopen halloc hr disk pos
  have hsmall : bs.length < 2 ^ 63 := by
    obtain ⟨h0, h1⟩ := hrange
    omega
  rw [to_ssize_t_small _ hsmall] at hret
  have hshort := (surviving_length env.write_fails 0 (request_appends bs)
    (request_appends_nonempty bs)).2 k (Nat.zero_le _)
    (by rw [request_appends_length]; omega) hfail
  rw [request_appends_flatten] at hshort
  refine ⟨request_appends_length bs, request_appends_flatten bs, r, h, hdisk, ?_, hret, ?_, ?_⟩
  · rw [hdisk]
    show (opened pos disk ++ _).length < (opened pos disk ++ _).length
    simp only [List.length_append]
    omega
  · rw [hret]
    omega
  · rw [hpos, loff_add_in_range pos bs.length hrange]

/-- A first write of `0xFF, 0xAB, 0x10` whose last append (the end-of-request line break, call 3)
fails meets the hypotheses of `append_failure_not_reported`. -/
theorem append_failure_not_reported_witness :
    (env_write_fails sample3 3).open_errno = none ∧
    (env_write_fails sample3 3).kmalloc_fails = false ∧
    Reads (env_write_fails sample3 3) sample3 ∧
    3 < sample3.length + sample3.length / 16 + (if sample3.length % 16 ≠ 0 then 1 else 0) ∧
    (env_write_fails sample3 3).write_fails 3 = true ∧ InRange 0 sample3.length ∧
    ∃ r, loop_write (env_write_fails sample3 3) [] sample3.length 0 = some r ∧
      r.disk = (if (0 : Int) = 0 then [] else []) ++
        surviving (env_write_fails sample3 3).write_fails 0 (request_appends sample3) ∧
      r.disk.length < ((if (0 : Int) = 0 then [] else []) ++ reference_transcode sample3).length ∧
      r.retval = (sample3.length : Int) ∧ 0 ≤ r.retval ∧ r.pos = 0 + (sample3.length : Int) :=
  ⟨rfl, rfl, fun _ _ => rfl, by decide, rfl, by decide,
    (append_failure_not_reported (env_write_fails sample3 3) sample3 rfl rfl (fun _ _ => rfl) 3
      (by decide) rfl [] 0 (by decide)).2.2⟩

/-- C12 fails as stated: in a first write of `0xFF, 0xAB, 0x10` whose second append (the hex pair
of `0xAB`) fails, the pair is missing from the file, and the request returns the byte count 3
and moves the logical offset from 0 to 3. -/
theorem append_failure_counterexample :
    (env_write_fails sample3 1).write_fails 1 = true ∧
    ∃ r, loop_write (env_write_fails sample3 1) [] 3 0 = some r ∧
      r.disk = "FF10\n".toList ∧ r.retval = 3 ∧ r.pos = 3 :=
  ⟨rfl, _, rfl, rfl, rfl, rfl⟩

/-- C13: when the open of the output file fails with the errno `e`, `loop_write` returns `-e`,
calls `copy_from_user` not once, and leaves the file content and the logical offset as they
were. -/
theorem open_failure_aborts (env : Env) (e : Nat) (hopen : env.open_errno = some e)
    (disk : List Char) (count : Nat) (pos : Int) :
    loop_write env disk count pos =
      some { retval := -(e : Int), pos := pos, disk := disk, flags := open_flags pos,
             copies := [] } := by
  simp only [loop_write, filp_open, hopen]

/-- A write of three octets whose open fails with `EACCES` (13) meets the hypothesis of
`open_failure_aborts`. -/
theorem open_failure_aborts_witness :
    (env_open_fails sample3 13).open_errno = some 13 ∧
    loop_write (env_open_fails sample3 13) ['o', 'l', 'd'] 3 0 =
      some { retval := -((13 : Nat) : Int), pos := 0, disk := ['o', 'l', 'd'],
             flags := open_flags 0, copies := [] } :=
  ⟨rfl, open_failure_aborts (env_open_fails sample3 13) 13 rfl ['o', 'l', 'd'] 3 0⟩

/-- C19: a write request at logical offset 0 whose open succeeds and which then fails, because
`kmalloc` fails or because the copy of the first chunk faults, returns a negative errno
(`-ENOMEM`, `-EFAULT`) and leaves the logical offset at 0, while the file is left empty whatever
it held before. -/
theorem failing_first_write_still_truncates (env : Env) (hopen : env.open_errno = none)
    (disk : List Char) (count : Nat)
    (hfail : env.kmalloc_fails = true ∨
      (env.kmalloc_fails = false ∧ 0 < count ∧
        copy_from_user env.user 0 (min count (calculate_chunk_size count)) = none)) :
    ∃ r, loop_write env disk count 0 = some r ∧
      r.retval = (if env.kmalloc_fails then -ENOMEM else -EFAULT) ∧ r.retval < 0 ∧
      r.pos = 0 ∧ r.disk = [] := by
  have hfo := filp_open_ok env hopen disk 0
  rcases hfail with halloc | ⟨halloc, hcount, hcopy⟩
  · refine ⟨{ retval := -ENOMEM, pos := 0, disk := [], flags := open_flags 0, copies := [] },
      ?_, ?_, by decide, rfl, rfl⟩
    · simp only [loop_write, hfo, halloc]
      rfl
    · simp [halloc]
  · obtain ⟨n, hn⟩ : ∃ n, count = n + 1 := ⟨count - 1, by omega⟩
    refine ⟨{ retval := -EFAULT, pos := 0, disk := [], flags := open_flags 0,
              copies := [(0, min count (calculate_chunk_size count))] },
      ?_, ?_, by show -EFAULT < 0; decide, rfl, rfl⟩
    · subst hn
      simp only [loop_write, hfo, halloc, while_loop, hcount, if_true, hcopy]
      rfl
    · simp [halloc]

/-- A first write of three octets over `"old"` in which `kmalloc` fails meets the hypotheses of
`failing_first_write_still_truncates`. -/
theorem failing_first_write_still_truncates_witness :
    (env_alloc_fails sample3).open_errno = none ∧ (env_alloc_fails sample3).kmalloc_fails = true ∧
    ∃ r, loop_write (env_alloc_fails sample3) ['o', 'l', 'd'] 3 0 = some r ∧
      r.retval = (if (env_alloc_fails sample3).kmalloc_fails then -ENOMEM else -EFAULT) ∧
      r.retval < 0 ∧ r.pos = 0 ∧ r.disk = [] :=
  ⟨rfl, rfl,
    failing_first_write_still_truncates (env_alloc_fails sample3) rfl ['o', 'l', 'd'] 3
      (Or.inl rfl)⟩

/-! ## The chunks of a request -/

/-- A list of `(offset, length)` pairs that starts at offset `b` and in which each pair starts
where the pair before it ends: every offset is `b` plus the lengths before it. -/
theorem offsets_of_chain (l : List (Nat × Nat)) (b : Nat) (hhead : ∀ p ∈ l.head?, p.1 = b)
    (hchain : List.Chain' (fun p q : Nat × Nat => q.1 = p.1 + p.2) l) (j : Nat) (p : Nat × Nat)
    (hj : l[j]? = some p) : p.1 = b + ((l.take j).map Prod.snd).sum := by
  induction l generalizing b j with
  | nil => simp at hj
  | cons a l ih =>
    have ha : a.1 = b := hhead a (by simp)
    cases j with
    | zero =>
      simp only [List.getElem?_cons_zero, Option.some.injEq] at hj
      subst hj
      simp [ha]
    | succ j =>
      rw [List.chain'_cons'] at hchain
      simp only [List.getElem?_cons_succ] at hj
      have := ih (a.1 + a.2) (fun q hq => hchain.1 q hq) hchain.2 j hj
      simp only [List.take_succ_cons, List.map_cons, List.sum_cons]
      omega

/-- The calls of `copy_from_user` made by the `while` loop of `loop_write`, in all surroundings:
they start at `bytes_written`, each starts where the one before ends, each asks for
`min (count - offset) 4096` octets, at least one; when the loop is left through its condition
there were `⌈remaining / 4096⌉` calls, for `remaining` octets in all. -/
theorem while_loop_trace (env : Env) (count fuel remaining bw : Nat) (f : OutFile)
    (copies : List (Nat × Nat)) (hfuel : remaining ≤ fuel) (hlen : bw + remaining = count) :
    ∃ f1 new,
      ((while_loop env (calculate_chunk_size count) fuel remaining bw f copies =
            .done f1 (copies ++ new) ∧
          new.length = (remaining + 4095) / 4096 ∧ (new.map Prod.snd).sum = remaining) ∨
        while_loop env (calculate_chunk_size count) fuel remaining bw f copies =
          .fault f1 (copies ++ new)) ∧
      (∀ p ∈ new.head?, p.1 = bw) ∧
      List.Chain' (fun p q : Nat × Nat => q.1 = p.1 + p.2) new ∧
      ∀ p ∈ new, p.2 = min (count - p.1) 4096 ∧ 0 < p.2 ∧ p.2 ≤ 4096 := by
  induction fuel generalizing remaining bw f copies with
  | zero =>
    have h0 : remaining = 0 := by omega
    subst h0
    exact ⟨f, [], Or.inl ⟨by simp [while_loop], rfl, rfl⟩, by simp, List.chain'_nil, by simp⟩
  | succ fuel ih =>
    by_cases hrem : remaining > 0
    · have hn : min remaining (calculate_chunk_size count) = min remaining 4096 := by
        unfold calculate_chunk_size MAX_CHUNK_SIZE
        omega
      cases hcopy : copy_from_user env.user bw (min remaining 4096) with
      | none =>
        refine ⟨f, [(bw, min remaining 4096)], Or.inr ?_, by simp, List.chain'_singleton _, ?_⟩
        · simp only [while_loop, hrem, if_true, hn, hcopy]
        · intro p hp
          simp only [List.mem_singleton] at hp
          subst hp
          simp only
          omega
      | some kbuf =>
        obtain ⟨f1, new, hres, hhead, hchain, hall⟩ := ih (remaining - min remaining 4096)
          (bw + min remaining 4096) (for_loop env bw kbuf 0 f)
          (copies ++ [(bw, min remaining 4096)]) (by omega) (by omega)
        have hassoc : copies ++ [(bw, min remaining 4096)] ++ new =
            copies ++ (bw, min remaining 4096) :: new := by simp
        rw [hassoc] at hres
        refine ⟨f1, (bw, min remaining 4096) :: new, ?_, by simp, ?_, ?_⟩
        · rcases hres with ⟨h1, h2, h3⟩ | h1
          · refine Or.inl ⟨?_, ?_, ?_⟩
            · simp only [while_loop, hrem, if_true, hn, hcopy]
              exact h1
            · simp only [List.length_cons, h2]
              omega
            · simp only [List.map_cons, List.sum_cons, h3]
              omega
          · refine Or.inr ?_
            simp only [while_loop, hrem, if_true, hn, hcopy]
            exact h1
        · rw [List.chain'_cons']
          exact ⟨fun q hq => hhead q hq, hchain⟩
        · intro p hp
          rcases List.mem_cons.mp hp with hp | hp
          · subst hp
            simp only
            omega
          · exact hall p hp
    · have h0 : remaining = 0 := by omega
      subst h0
      exact ⟨f, [], Or.inl ⟨by simp [while_loop], rfl, rfl⟩, by simp, List.chain'_nil, by simp⟩

/-- C14: in all surroundings and for every `count`, every chunk that `loop_write` copies from
the caller starts at the number of octets staged before it (the lengths of the earlier chunks)
and has length `min (count - offset) 4096`, the minimum of the octets not yet staged and 4096; no
chunk is longer than 4096 octets and none is empty. -/
theorem chunk_length_is_min (env : Env) (disk : List Char) (count : Nat) (pos : Int) :
    ∃ r, loop_write env disk count pos = some r ∧
      ∀ j p, r.copies[j]? = some p →
        p.1 = ((r.copies.take j).map Prod.snd).sum ∧
        p.2 = min (count - p.1) MAX_CHUNK_SIZE ∧ p.2 ≤ 4096 ∧ 0 < p.2 := by
  unfold loop_write
  cases hopen : env.open_errno with
  | some e =>
    simp only [filp_open, hopen]
    exact ⟨_, rfl, by simp⟩
  | none =>
    simp only [filp_open_ok env hopen]
    cases halloc : env.kmalloc_fails with
    | true =>
      simp only [if_true]
      exact ⟨_, rfl, by simp⟩
    | false =>
      obtain ⟨f1, new, hres, hhead, hchain, hall⟩ := while_loop_trace env count count count 0
        { data := opened pos disk, nwrites := 0 } [] (Nat.le_refl _) (by omega)
      simp only [List.nil_append] at hres
      have hkey : ∀ j p, new[j]? = some p →
          p.1 = ((new.take j).map Prod.snd).sum ∧
          p.2 = min (count - p.1) MAX_CHUNK_SIZE ∧ p.2 ≤ 4096 ∧ 0 < p.2 := by
        intro j p hj
        have hoff := offsets_of_chain new 0 hhead hchain j p hj
        obtain ⟨a1, a2, a3⟩ := hall p (List.mem_iff_getElem?.mpr ⟨j, hj⟩)
        exact ⟨by omega, a1, a3, a2⟩
      rcases hres with ⟨h1, _, _⟩ | h1
      · simp only [h1]
        exact ⟨_, rfl, hkey⟩
      · simp only [h1]
        exact ⟨_, rfl, hkey⟩

/-- Any budget of at least `remaining` iterations gives the `while` loop the same result. -/
theorem while_loop_fuel (env : Env) (chunk_size fuel1 fuel2 remaining bw : Nat) (f : OutFile)
    (copies : List (Nat × Nat)) (h1 : remaining ≤ fuel1) (h2 : remaining ≤ fuel2)
    (hchunk : 0 < remaining → 0 < chunk_size) :
    while_loop env chunk_size fuel1 remaining bw f copies =
      while_loop env chunk_size fuel2 remaining bw f copies := by
  induction fuel1 generalizing fuel2 remaining bw f copies with
  | zero =>
    have h0 : remaining = 0 := by omega
    subst h0
    cases fuel2 <;> simp [while_loop]
  | succ fuel1 ih =>
    by_cases hrem : remaining > 0
    · obtain ⟨n, hn⟩ : ∃ n, fuel2 = n + 1 := ⟨fuel2 - 1, by omega⟩
      subst hn
      have hc := hchunk hrem
      simp only [while_loop, hrem, if_true]
      cases copy_from_user env.user bw (min remaining chunk_size) with
      | none => rfl
      | some kbuf => exact ih n _ _ _ _ (by omega) (by omega) (fun _ => hc)
    · have h0 : remaining = 0 := by omega
      subst h0
      cases fuel2 <;> simp [while_loop]

/-- C17: the chunk loop of `loop_write` terminates. (1) One iteration started with
`bytes_written + remaining_bytes = count` and `remaining_bytes > 0` whose copy succeeds continues
with a strictly smaller `remaining_bytes` and again `bytes_written + remaining_bytes = count`.
(2) In all surroundings, with any budget of at least `count` iterations the loop is left and
gives the same result.
(3) When no copy fails, `loop_write` returns after exactly `⌈count / 4096⌉` iterations (calls of
`copy_from_user`), each chunk is non-empty, and the chunk lengths sum to `count`. -/
theorem chunk_loop_terminates (env : Env) (bs : List Byte) (hopen : env.open_errno = none)
    (halloc : env.kmalloc_fails = false) (hr : Reads env bs) (disk : List Char) (pos : Int) :
    (∀ (fuel remaining bw : Nat) (f : OutFile) (copies : List (Nat × Nat)) (kbuf : List Byte),
      0 < remaining → bw + remaining = bs.length →
      copy_from_user env.user bw (min remaining (calculate_chunk_size bs.length)) = some kbuf →
      while_loop env (calculate_chunk_size bs.length) (fuel + 1) remaining bw f copies =
        while_loop env (calculate_chunk_size bs.length) fuel
          (remaining - min remaining (calculate_chunk_size bs.length))
          (bw + min remaining (calculate_chunk_size bs.length)) (for_loop env bw kbuf 0 f)
          (copies ++ [(bw, min remaining (calculate_chunk_size bs.length))]) ∧
      remaining - min remaining (calculate_chunk_size bs.length) < remaining ∧
      (bw + min remaining (calculate_chunk_size bs.length)) +
        (remaining - min remaining (calculate_chunk_size bs.length)) = bs.length) ∧
    (∀ (env1 : Env) (fuel : Nat) (f : OutFile), bs.length ≤ fuel →
      while_loop env1 (calculate_chunk_size bs.length) fuel bs.length 0 f [] =
        while_loop env1 (calculate_chunk_size bs.length) bs.length bs.length 0 f [] ∧
      while_loop env1 (calculate_chunk_size bs.length) fuel bs.length 0 f [] ≠ .hang) ∧
    (∃ r, loop_write env disk bs.length pos = some r ∧
      r.copies.length = (bs.length + 4095) / 4096 ∧
      (r.copies.map Prod.snd).sum = bs.length ∧
      ∀ p ∈ r.copies, 0 < p.2) := by
  refine ⟨?_, ?_, ?_⟩
  · intro fuel remaining bw f copies kbuf hrem hlen hcopy
    have hc := calculate_chunk_size_pos bs.length (by omega)
    refine ⟨?_, by omega, by omega⟩
    have hrem1 : remaining > 0 := hrem
    simp only [while_loop, hrem1, if_true, hcopy]
  · intro env1 fuel f hfuel
    have heq := while_loop_fuel env1 (calculate_chunk_size bs.length) fuel bs.length bs.length 0
      f [] hfuel (Nat.le_refl _) (calculate_chunk_size_pos _)
    obtain ⟨f1, cs, h1, _⟩ := while_loop_exits env1 (calculate_chunk_size bs.length) bs.length
      bs.length 0 f [] (Nat.le_refl _) (calculate_chunk_size_pos _)
    refine ⟨heq, ?_⟩
    rw [heq]
    rcases h1 with h1 | h1 <;> rw [h1] <;> simp
  · obtain ⟨f1, cs, h1⟩ := while_loop_reads env bs hr (calculate_chunk_size bs.length) bs.length
      bs.length 0 { data := opened pos disk, nwrites := 0 } [] (Nat.le_refl _)
      (calculate_chunk_size_pos _) (by omega)
    obtain ⟨f2, new, hres, _, _, hall⟩ := while_loop_trace env bs.length bs.length bs.length 0
      { data := opened pos disk, nwrites := 0 } [] (Nat.le_refl _) (by omega)
    simp only [List.nil_append] at hres
    rcases hres with ⟨h2, h3, h4⟩ | h2
    · rw [h1] at h2
      simp only [LoopExit.done.injEq] at h2
      obtain ⟨_, hcs⟩ := h2
      subst hcs
      simp only [loop_write, filp_open_ok env hopen, halloc, h1]
      exact ⟨_, rfl, h3, h4, fun p hp => (hall p hp).2.1⟩
    · rw [h1] at h2
      simp at h2

/-- A write of 4097 octets meets the hypotheses of `chunk_loop_terminates`: two iterations. -/
theorem chunk_loop_terminates_witness :
    (env_ok (sample4096 ++ [0x42])).open_errno = none ∧
    (env_ok (sample4096 ++ [0x42])).kmalloc_fails = false ∧
    Reads (env_ok (sample4096 ++ [0x42])) (sample4096 ++ [0x42]) ∧
    ∃ r, loop_write (env_ok (sample4096 ++ [0x42])) [] (sample4096 ++ [0x42]).length 0 = some r ∧
      r.copies.length = ((sample4096 ++ [0x42]).length + 4095) / 4096 ∧
      (r.copies.map Prod.snd).sum = (sample4096 ++ [0x42]).length ∧
      ∀ p ∈ r.copies, 0 < p.2 :=
  ⟨rfl, rfl, fun _ _ => rfl,
    (chunk_loop_terminates (env_ok (sample4096 ++ [0x42])) (sample4096 ++ [0x42]) rfl rfl
      (fun _ _ => rfl) [] 0).2.2⟩

/-! ## The two line breaks at the end of a request -/

/-- C15, as the code has it: the 16-alignment break of the last octet and the forced
end-of-request break never coincide. In the text emitted by a successful write request of
`count > 0` octets, the text of the `for` loops (`body`) ends with a line break if and only if
`count % 16 = 0`, the forced break is added if and only if `count % 16 ≠ 0`, and the emitted text
ends with two characters that are not line breaks followed by exactly one line break. -/
theorem breaks_never_coincide (env : Env) (bs : List Byte) (hs : Succeeds env bs)
    (h0 : 0 < bs.length) (disk : List Char) (pos : Int) :
    ∃ r body, loop_write env disk bs.length pos = some r ∧
      r.disk = (if pos = 0 then [] else disk) ++ body ++
        (if bs.length % 16 ≠ 0 then ['\n'] else []) ∧
      body.length = 2 * bs.length + bs.length / 16 ∧
      (body.getLast? = some '\n' ↔ bs.length % 16 = 0) ∧
      ∃ pre hi lo, hi ≠ '\n' ∧ lo ≠ '\n' ∧
        body ++ (if bs.length % 16 ≠ 0 then ['\n'] else []) = pre ++ [hi, lo, '\n'] := by
  obtain ⟨cs, h⟩ := loop_write_ok env bs hs disk pos
  obtain ⟨pre, hi, lo, hhi, hlo, hsplit⟩ := hex_lines_last bs h0
  have hlen : (hex_lines 0 bs).length = 2 * bs.length + bs.length / 16 := by
    rw [hex_lines_length]
    simp
  refine ⟨_, hex_lines 0 bs, h, rfl, hlen, ?_, pre, hi, lo, hhi, hlo, ?_⟩
  · rw [hsplit]
    by_cases hm : bs.length % 16 = 0
    · simp [hm]
    · simp only [hm, if_false, List.append_nil, iff_false]
      rw [List.getLast?_append_of_ne_nil _ (by simp)]
      simp
      exact hlo
  · rw [hsplit]
    by_cases hm : bs.length % 16 = 0 <;> simp [hm]

/-- A first write of `0xFF, 0xAB, 0x10` meets the hypotheses of `breaks_never_coincide`. -/
theorem breaks_never_coincide_witness :
    Succeeds (env_ok sample3) sample3 ∧ 0 < sample3.length ∧
    ∃ r body, loop_write (env_ok sample3) [] sample3.length 0 = some r ∧
      r.disk = (if (0 : Int) = 0 then [] else []) ++ body ++
        (if sample3.length % 16 ≠ 0 then ['\n'] else []) ∧
      body.length = 2 * sample3.length + sample3.length / 16 ∧
      (body.getLast? = some '\n' ↔ sample3.length % 16 = 0) ∧
      ∃ pre hi lo, hi ≠ '\n' ∧ lo ≠ '\n' ∧
        body ++ (if sample3.length % 16 ≠ 0 then ['\n'] else []) = pre ++ [hi, lo, '\n'] :=
  ⟨env_ok_succeeds sample3, by decide,
    breaks_never_coincide (env_ok sample3) sample3 (env_ok_succeeds sample3) (by decide) [] 0⟩

/-- C15 fails as stated: there is no successful write request with `count % 16 ≠ 0`, at any
logical offset and over any file content, whose output ends with two consecutive line breaks. -/
theorem double_break_counterexample :
    ¬ ∃ (env : Env) (bs : List Byte) (disk : List Char) (pos : Int) (r : WriteResult),
      Succeeds env bs ∧ bs.length % 16 ≠ 0 ∧ loop_write env disk bs.length pos = some r ∧
      ∃ pre, r.disk = pre ++ ['\n', '\n'] := by
  rintro ⟨env, bs, disk, pos, r, hs, hm, hr, pre, hpre⟩
  obtain ⟨cs, h⟩ := loop_write_ok env bs hs disk pos
  rw [h] at hr
  simp only [Option.some.injEq] at hr
  subst hr
  obtain ⟨p, hi, lo, hhi, hlo, hsplit⟩ := hex_lines_last bs (by omega)
  simp only [hsplit, hm, if_false, List.append_nil, forced_break, ne_eq, not_false_eq_true,
    if_true] at hpre
  have hre : opened pos disk ++ (p ++ [hi, lo]) ++ ['\n'] =
      (opened pos disk ++ p ++ [hi]) ++ [lo, '\n'] := by simp
  rw [hre] at hpre
  have := (List.append_inj' hpre rfl).2
  simp only [List.cons.injEq, and_true] at this
  exact hlo this

/-! ## Chunking and decoding -/

/-- C16: chunking is invisible in the output. For every positive maximum chunk size, the `while`
loop of `loop_write` run with the chunk size `min count max_chunk`, followed by the
end-of-request break, adds to the file exactly the unchunked reference text of the request; for
the maximum chunk size 4096 of the source this is the output of `loop_write`. -/
theorem chunking_is_invisible (env : Env) (bs : List Byte) (hs : Succeeds env bs)
    (max_chunk : Nat) (hmax : 0 < max_chunk) (f : OutFile) (disk : List Char) (pos : Int) :
    (∃ f1 cs,
      while_loop env (min bs.length max_chunk) bs.length bs.length 0 f [] = .done f1 cs ∧
      (if bs.length % 16 ≠ 0 then kernel_write env f1 ['\n'] else f1).data =
        f.data ++ reference_transcode bs) ∧
    calculate_chunk_size bs.length = min bs.length 4096 ∧
    ∃ r, loop_write env disk bs.length pos = some r ∧
      r.disk = (if pos = 0 then [] else disk) ++ reference_transcode bs := by
  obtain ⟨_, _, hr, hw⟩ := hs
  refine ⟨?_, rfl, ?_⟩
  · obtain ⟨f1, cs, h1, h2⟩ := while_loop_ok env bs hr hw (min bs.length max_chunk) bs.length
      bs.length 0 f [] (Nat.le_refl _) (by omega) (by omega)
    refine ⟨f1, cs, h1, ?_⟩
    simp only [List.drop_zero] at h2
    by_cases hm : bs.length % 16 = 0
    · simp [hm, h2, reference_transcode, forced_break]
    · simp [hm, h2, reference_transcode, forced_break, kernel_write_ok env hw]
  · obtain ⟨cs, h⟩ := loop_write_ok env bs ⟨‹_›, ‹_›, hr, hw⟩ disk pos
    refine ⟨_, h, ?_⟩
    simp [opened, reference_transcode]

/-- Twenty octets staged in chunks of at most seven octets meet the hypotheses of
`chunking_is_invisible`. -/
theorem chunking_is_invisible_witness :
    Succeeds (env_ok sample20) sample20 ∧ 0 < 7 ∧
    (∃ f1 cs,
      while_loop (env_ok sample20) (min sample20.length 7) sample20.length sample20.length 0
        { data := ['x'], nwrites := 0 } [] = .done f1 cs ∧
      (if sample20.length % 16 ≠ 0 then kernel_write (env_ok sample20) f1 ['\n'] else f1).data =
        ['x'] ++ reference_transcode sample20) :=
  ⟨env_ok_succeeds sample20, by decide,
    (chunking_is_invisible (env_ok sample20) sample20 (env_ok_succeeds sample20) 7 (by decide)
      { data := ['x'], nwrites := 0 } [] 0).1⟩

set_option maxRecDepth 100000 in
theorem decode_hex_digits (b : Byte) :
    (16 * hex_digit_value (hex_digit_upper (b.val / 16)) +
      hex_digit_value (hex_digit_upper (b.val % 16))) % 256 = b.val := by
  revert b
  decide

theorem decode_pairs_flatten (bs : List Byte) :
    decode_pairs ((bs.map hex_pair).flatten) = bs := by
  induction bs with
  | nil => rfl
  | cons b bs ih =>
    have hstep : decode_pairs ((List.map hex_pair (b :: bs)).flatten) =
        ⟨(16 * hex_digit_value (hex_digit_upper (b.val / 16)) +
            hex_digit_value (hex_digit_upper (b.val % 16))) % 256, Nat.mod_lt _ (by decide)⟩ ::
          decode_pairs ((bs.map hex_pair).flatten) := rfl
    rw [hstep, ih]
    congr 1
    exact Fin.ext (decode_hex_digits b)

/-- The text emitted by a successful request, line breaks removed, is the sequence of hex pairs
of its octets. -/
theorem emitted_filter (bs : List Byte) :
    (hex_lines 0 bs ++ forced_break bs.length).filter (· ≠ '\n') = (bs.map hex_pair).flatten := by
  rw [List.filter_append, hex_lines_filter]
  unfold forced_break
  split <;> simp

/-- C18: the transcription is lossless. From the text emitted by a successful write request,
removing the line breaks and decoding each two consecutive hex digits as an octet gives back the
octets written, in order; hence two successful requests made at the same offset over the same
file content that leave the same output wrote the same octets. -/
theorem transcription_is_lossless (env : Env) (bs : List Byte) (hs : Succeeds env bs)
    (disk : List Char) (pos : Int) :
    ∃ r emitted, loop_write env disk bs.length pos = some r ∧
      r.disk = (if pos = 0 then [] else disk) ++ emitted ∧
      decode_pairs (emitted.filter (· ≠ '\n')) = bs ∧
      ∀ (env2 : Env) (bs2 : List Byte) (r2 : WriteResult), Succeeds env2 bs2 →
        loop_write env2 disk bs2.length pos = some r2 → r2.disk = r.disk → bs2 = bs := by
  obtain ⟨cs, h⟩ := loop_write_ok env bs hs disk pos
  refine ⟨_, hex_lines 0 bs ++ forced_break bs.length, h, ?_, ?_, ?_⟩
  · simp [opened]
  · rw [emitted_filter, decode_pairs_flatten]
  · intro env2 bs2 r2 hs2 h2 heq
    obtain ⟨cs2, e2⟩ := loop_write_ok env2 bs2 hs2 disk pos
    rw [e2] at h2
    simp only [Option.some.injEq] at h2
    subst h2
    simp only [List.append_assoc] at heq
    have hcancel := List.append_cancel_left heq
    have hdec := congrArg (fun t => decode_pairs (t.filter (· ≠ '\n'))) hcancel
    simp only [emitted_filter, decode_pairs_flatten] at hdec
    exact hdec

/-- A first write of `0xFF, 0xAB, 0x10` meets the hypotheses of `transcription_is_lossless`. -/
theorem transcription_is_lossless_witness :
    Succeeds (env_ok sample3) sample3 ∧
    ∃ r emitted, loop_write (env_ok sample3) [] sample3.length 0 = some r ∧
      r.disk = (if (0 : Int) = 0 then [] else []) ++ emitted ∧
      decode_pairs (emitted.filter (· ≠ '\n')) = sample3 ∧
      ∀ (env2 : Env) (bs2 : List Byte) (r2 : WriteResult), Succeeds env2 bs2 →
        loop_write env2 [] bs2.length 0 = some r2 → r2.disk = r.disk → bs2 = sample3 :=
  ⟨env_ok_succeeds sample3,
    transcription_is_lossless (env_ok sample3) sample3 (env_ok_succeeds sample3) [] 0⟩

end LoopDevice
